import Mathlib

/-!
The library llist: a doubly linked list with caller-supplied hooks.

A shallow embedding of `src/src/llist.c` (declarations in `src/include/llist.h`).

* A C pointer is an `Option Ptr`: `none` is `NULL`, `some p` the address `p`.
* Node storage is a total map from addresses to `llist_node` records; every access the C code
  makes through a pointer is a read or a write of that map, so aliasing between `added`,
  `where`, `located` and their neighbours behaves as in C.
* A list handle (`llist *`) is passed and returned by value; a `NULL` handle is `none`.
* The four hooks are caller code: they are functions on the memory, stored in the handle.
  Every call the library makes to a hook, and every call to `free`, is recorded in a trace.
* The `while` loop of `llist_remove` runs on fuel: `none` means the fuel ran out before the
  loop ended (in C: a walk that has not reached `NULL` yet).
-/

namespace LList

/-- A non-null address. -/
abbrev Ptr := Nat

/-- The enum `llist_position` of `llist.h`. -/
inductive llist_position where
  | tail
  | head
  | before
  | after
  deriving DecidableEq, Repr

/-- The struct `llist_node` of `llist.h`. -/
structure llist_node where
  previous : Option Ptr
  next : Option Ptr
  payload : Option Ptr
  deriving DecidableEq, Repr

/-- The memory the library and the hooks share: node storage, and the contents of the
caller-owned storage a payload pointer refers to (opaque to the library, read by hooks). -/
structure Mem where
  nodes : Ptr → llist_node
  user : Ptr → Int

/-- Calls that leave the library: the generic `free`, and the hooks. -/
inductive Event where
  | free (p : Ptr)
  | free_node (p : Ptr)
  | dup_node (p : Ptr)
  | cmp_node (a b : Ptr)
  | new_node
  deriving DecidableEq, Repr

/-- Memory together with the record of outgoing calls. -/
structure State where
  mem : Mem
  trace : List Event

/-- The struct `llist` of `llist.h`; an unbound hook is `none`. -/
structure llist where
  head : Option Ptr
  tail : Option Ptr
  current : Option Ptr
  new_node : Option (Mem → Option Ptr × Mem)
  dup_node : Option (Mem → Ptr → Option Ptr × Mem)
  free_node : Option (Mem → Ptr → Mem)
  cmp_node : Option (Mem → Ptr → Ptr → Int)

/-- The write `p->previous = v`. -/
def set_previous (m : Mem) (p : Ptr) (v : Option Ptr) : Mem :=
  { m with nodes := fun q => if q = p then { m.nodes p with previous := v } else m.nodes q }

/-- The write `p->next = v`. -/
def set_next (m : Mem) (p : Ptr) (v : Option Ptr) : Mem :=
  { m with nodes := fun q => if q = p then { m.nodes p with next := v } else m.nodes q }

/-- A handle after `memset(ll, 0, sizeof(llist))`: every pointer `NULL`, no hook bound. -/
def llist.zero : llist :=
  { head := none, tail := none, current := none,
    new_node := none, dup_node := none, free_node := none, cmp_node := none }

/-- The function `llist_new`: a zeroed handle, or `NULL` when `malloc` fails
(`malloc_ok = false`). -/
def llist_new (malloc_ok : Bool) : Option llist :=
  if malloc_ok then some llist.zero else none

/-- Lines 278-279 of `llist_add`: the value of `added`. With no duplicate hook it is `node`
itself; otherwise the hook is called and its result (possibly `NULL`) is taken. -/
def llist_add_added (s : State) (l : llist) (n : Ptr) : State × Option Ptr :=
  match l.dup_node with
  | none => (s, some n)
  | some f => ({ mem := (f s.mem n).2, trace := s.trace ++ [Event.dup_node n] }, (f s.mem n).1)

/-- The reference resolution of the `before` and `after` arms of `llist_add`:
`if (!where) where = ll->current; if (!where) where = dflt;` with `dflt` the head
(`before`) or the tail (`after`). -/
def llist_add_where (where_ current dflt : Option Ptr) : Option Ptr :=
  let w1 := if where_ = none then current else where_
  if w1 = none then dflt else w1

/-- The function `llist_add`. -/
def llist_add (s : State) (ll : Option llist) (position : llist_position)
    (where_ node : Option Ptr) : State × Option llist :=
  match ll, node with
  | some l, some n =>
    match llist_add_added s l n with
    | (s1, none) => (s1, some l)
    | (s1, some added) =>
      -- added->previous = added->next = NULL;
      let m0 := set_previous (set_next s1.mem added none) added none
      let r : Mem × llist :=
        match position with
        | llist_position.head =>
          let m1 := set_next m0 added l.head
          let m2 := match l.head with
            | some h => set_previous m1 h (some added)
            | none => m1
          let l1 := { l with head := some added }
          let l2 := if l1.tail = none then { l1 with tail := some added } else l1
          (m2, l2)
        | llist_position.tail =>
          let m1 := set_previous m0 added l.tail
          let m2 := match l.tail with
            | some t => set_next m1 t (some added)
            | none => m1
          let l1 := { l with tail := some added }
          let l2 := if l1.head = none then { l1 with head := some added } else l1
          (m2, l2)
        | llist_position.before =>
          match llist_add_where where_ l.current l.head with
          | none => (m0, l)
          | some w =>
            let m1 := set_previous m0 added (m0.nodes w).previous
            let m2 := match (m1.nodes w).previous with
              | some p => set_next m1 p (some added)
              | none => m1
            let m3 := set_next m2 added (some w)
            let m4 := set_previous m3 w (some added)
            let l1 := if l.head = some w then { l with head := some added } else l
            (m4, l1)
        | llist_position.after =>
          match llist_add_where where_ l.current l.tail with
          | none => (m0, l)
          | some w =>
            let m1 := set_previous m0 added (some w)
            let m2 := set_next m1 added (m1.nodes w).next
            let m3 := set_next m2 w (some added)
            let l1 := if l.tail = some w then { l with tail := some added } else l
            (m3, l1)
      let l3 := if r.2.head = none then { r.2 with head := some added } else r.2
      let l4 := if l3.tail = none then { l3 with tail := some added } else l3
      ({ s1 with mem := r.1 }, some { l4 with current := some added })
  | _, _ => (s, ll)

/-- Lines 350-351 of `llist_remove`, the two writes that take `located` out of the chain:
`if (located->next) located->next->previous = located->previous;`
`if (located->previous) located->previous->next = located->next;` -/
def llist_remove_splice (m : Mem) (located : Ptr) : Mem :=
  let m1 := match (m.nodes located).next with
    | some nx => set_previous m nx (m.nodes located).previous
    | none => m
  match (m1.nodes located).previous with
  | some pv => set_next m1 pv (m1.nodes located).next
  | none => m1

/-- The `while (located)` loop of `llist_remove`, on fuel. The result carries the final value
of `located`: the removed node after the `break`, `NULL` when the walk reached the end. -/
def llist_remove_loop (node : Ptr) :
    Nat → State → llist → Option Ptr → Option (State × llist × Option Ptr)
  | _, s, l, none => some (s, l, none)
  | 0, _, _, some _ => none
  | fuel + 1, s, l, some located =>
    if located = node then
      let m2 := llist_remove_splice s.mem located
      let l1 := if l.head = some located then { l with head := (m2.nodes located).next } else l
      let l2 :=
        if l1.tail = some located then { l1 with tail := (m2.nodes located).previous } else l1
      let s1 : State := match l2.free_node with
        | some f => { mem := f m2 located, trace := s.trace ++ [Event.free_node located] }
        | none => { mem := m2, trace := s.trace ++ [Event.free located] }
      some (s1, l2, some located)
    else llist_remove_loop node fuel s l (s.mem.nodes located).next

/-- The function `llist_remove`. -/
def llist_remove (fuel : Nat) (s : State) (ll : Option llist) (node : Option Ptr) :
    Option (State × Option llist) :=
  match ll, node with
  | some l, some n =>
    match llist_remove_loop n fuel s l l.head with
    | none => none
    | some (s1, l1, located) =>
      some (s1, some (if l1.current = located then { l1 with current := l1.head } else l1))
  | _, _ => some (s, ll)

/-- The function `llist_head`: `ll ? ll->current = ll->head : NULL`. -/
def llist_head (ll : Option llist) : Option llist × Option Ptr :=
  match ll with
  | some l => (some { l with current := l.head }, l.head)
  | none => (none, none)

/-- The function `llist_tail`: `ll ? ll->current = ll->tail : NULL`. -/
def llist_tail (ll : Option llist) : Option llist × Option Ptr :=
  match ll with
  | some l => (some { l with current := l.tail }, l.tail)
  | none => (none, none)

/-- The function `llist_current`: `ll ? ll->current : NULL`. -/
def llist_current (ll : Option llist) : Option Ptr :=
  match ll with
  | some l => l.current
  | none => none

/-- The function `llist_previous`:
`(ll && ll->current) ? ll->current = ll->current->previous : NULL`. -/
def llist_previous (m : Mem) (ll : Option llist) : Option llist × Option Ptr :=
  match ll with
  | some l =>
    match l.current with
    | some c => (some { l with current := (m.nodes c).previous }, (m.nodes c).previous)
    | none => (ll, none)
  | none => (none, none)

/-- The function `llist_next`:
`(ll && ll->current) ? ll->current = ll->current->next : NULL`. -/
def llist_next (m : Mem) (ll : Option llist) : Option llist × Option Ptr :=
  match ll with
  | some l =>
    match l.current with
    | some c => (some { l with current := (m.nodes c).next }, (m.nodes c).next)
    | none => (ll, none)
  | none => (none, none)

/-- The function `llist_set_new`: `if (ll) ll->new_node = new_func;`. -/
def llist_set_new (ll : Option llist) (new_func : Option (Mem → Option Ptr × Mem)) :
    Option llist :=
  ll.map fun l => { l with new_node := new_func }

/-- The function `llist_set_dup`: `if (ll) ll->dup_node = dup_func;`. -/
def llist_set_dup (ll : Option llist) (dup_func : Option (Mem → Ptr → Option Ptr × Mem)) :
    Option llist :=
  ll.map fun l => { l with dup_node := dup_func }

/-- The function `llist_set_free`: `if (ll) ll->free_node = free_func;`. -/
def llist_set_free (ll : Option llist) (free_func : Option (Mem → Ptr → Mem)) : Option llist :=
  ll.map fun l => { l with free_node := free_func }

/-- The function `llist_set_cmp`: `if (ll) ll->cmp_node = cmp_func;`. -/
def llist_set_cmp (ll : Option llist) (cmp_func : Option (Mem → Ptr → Ptr → Int)) :
    Option llist :=
  ll.map fun l => { l with cmp_node := cmp_func }

/-- The `while (node_p)` loop of `llist_dup`, on fuel: `l` is the source handle, `new_ll` the
handle being filled, the last argument is `node_p`. A failed duplication is the `break`. -/
def llist_dup_loop (l : llist) :
    Nat → State → Option llist → Option Ptr → Option (State × Option llist)
  | _, s, new_ll, none => some (s, new_ll)
  | 0, _, _, some _ => none
  | fuel + 1, s, new_ll, some node_p =>
    match l.dup_node with
    | none =>
      let r := llist_add s new_ll llist_position.tail none (some node_p)
      llist_dup_loop l fuel r.1 r.2 (r.1.mem.nodes node_p).next
    | some f =>
      let s1 : State := { mem := (f s.mem node_p).2, trace := s.trace ++ [Event.dup_node node_p] }
      match (f s.mem node_p).1 with
      | none => some (s1, new_ll)
      | some node =>
        let r := llist_add s1 new_ll llist_position.tail none (some node)
        llist_dup_loop l fuel r.1 r.2 (r.1.mem.nodes node_p).next

/-- The function `llist_dup`; `malloc_ok` says whether the `malloc` of `llist_new` succeeds. -/
def llist_dup (malloc_ok : Bool) (fuel : Nat) (s : State) (ll : Option llist) :
    Option (State × Option llist) :=
  match ll with
  | none => some (s, none)
  | some l =>
    match llist_new malloc_ok with
    | none => some (s, none)
    | some new_ll =>
      let n1 := llist_set_new (some new_ll) l.new_node
      let n2 := llist_set_dup n1 l.dup_node
      let n3 := llist_set_free n2 l.free_node
      let n4 := llist_set_cmp n3 l.cmp_node
      llist_dup_loop l fuel s n4 l.head

/-- The `while (node)` loop of `llist_find`, on fuel; every call of the compare hook is
recorded. The result is the final value of `node`. -/
def llist_find_loop (cmp : Mem → Ptr → Ptr → Int) (needle : Ptr) :
    Nat → State → Option Ptr → Option (State × Option Ptr)
  | _, s, none => some (s, none)
  | 0, _, some _ => none
  | fuel + 1, s, some node =>
    let s1 : State := { s with trace := s.trace ++ [Event.cmp_node node needle] }
    if cmp s.mem node needle = 0 then some (s1, some node)
    else llist_find_loop cmp needle fuel s1 (s.mem.nodes node).next

/-- The function `llist_find`. -/
def llist_find (fuel : Nat) (s : State) (ll : Option llist) (needle : Option Ptr) :
    Option (State × Option Ptr) :=
  match ll, needle with
  | some l, some nd =>
    match l.cmp_node with
    | none => some (s, none)
    | some cmp => llist_find_loop cmp nd fuel s l.head
  | _, _ => some (s, none)

/-- The `while (node)` loop of `llist_find_payload`, on fuel. -/
def llist_find_payload_loop (m : Mem) (payload : Ptr) : Nat → Option Ptr → Option (Option Ptr)
  | _, none => some none
  | 0, some _ => none
  | fuel + 1, some node =>
    if (m.nodes node).payload = some payload then some (some node)
    else llist_find_payload_loop m payload fuel (m.nodes node).next

/-- The function `llist_find_payload`; the state is returned to show that nothing is called. -/
def llist_find_payload (fuel : Nat) (s : State) (ll : Option llist) (payload : Option Ptr) :
    Option (State × Option Ptr) :=
  match ll, payload with
  | some l, some pl =>
    match l.cmp_node with
    | none => some (s, none)
    | some _ => (llist_find_payload_loop s.mem pl fuel l.head).map fun r => (s, r)
  | _, _ => some (s, none)

/-- The compare hook `cmp_node` of `test-llist.c`: a three-way comparison of the `id` of the
two items; `m.user q` is the `id` of the item at address `q`. -/
def cmp_node (m : Mem) (a b : Ptr) : Int :=
  match (m.nodes a).payload, (m.nodes b).payload with
  | some a_it, some b_it =>
    if m.user a_it < m.user b_it then -1
    else if m.user a_it > m.user b_it then 1
    else 0
  | _, _ => 0

/-- The walk `node = head; while (node) node = node->next`, on fuel, listing the nodes
visited; `none` when the fuel runs out before `NULL` is reached. -/
def walk_next (m : Mem) : Nat → Option Ptr → Option (List Ptr)
  | _, none => some []
  | 0, some _ => none
  | fuel + 1, some p => (walk_next m fuel (m.nodes p).next).map (fun ps => p :: ps)

/-- The walk from the tail along `previous`, on fuel. -/
def walk_previous (m : Mem) : Nat → Option Ptr → Option (List Ptr)
  | _, none => some []
  | 0, some _ => none
  | fuel + 1, some p => (walk_previous m fuel (m.nodes p).previous).map (fun ps => p :: ps)

/-- A doubly linked segment: starting at pointer `p`, whose node must have `previous = prev`,
the `next` links run through exactly the nodes `xs`, each node's `previous` being the node
before it; `last` is the last node run through (`prev` for an empty segment) and `nxt` the
`next` pointer of that last node. -/
def Seg (m : Mem) : Option Ptr → Option Ptr → List Ptr → Option Ptr → Option Ptr → Prop
  | prev, p, [], last, nxt => p = nxt ∧ last = prev
  | prev, p, x :: xs, last, nxt =>
    p = some x ∧ (m.nodes x).previous = prev ∧ Seg m (some x) (m.nodes x).next xs last nxt

/-- A well-formed list with node sequence `xs`: no node occurs twice, the forward chain from
`head` runs through `xs` and ends in `NULL` at `tail`, `head->previous` is `NULL` and every
back link mirrors the forward link. -/
def WellFormed (m : Mem) (l : llist) (xs : List Ptr) : Prop :=
  xs.Nodup ∧ Seg m none l.head xs l.tail none

/-- Whether a segment holds can be computed, link by link. -/
instance Seg.instDecidable (m : Mem) :
    ∀ (xs : List Ptr) (prev p last nxt : Option Ptr), Decidable (Seg m prev p xs last nxt)
  | [], prev, p, last, nxt => inferInstanceAs (Decidable (p = nxt ∧ last = prev))
  | x :: xs, prev, p, last, nxt =>
    have := Seg.instDecidable m xs (some x) (m.nodes x).next last nxt
    inferInstanceAs (Decidable (p = some x ∧ (m.nodes x).previous = prev ∧
      Seg m (some x) (m.nodes x).next xs last nxt))

/-- Whether a list is well-formed with a given node sequence can be computed. -/
instance WellFormed.instDecidable (m : Mem) (l : llist) (xs : List Ptr) :
    Decidable (WellFormed m l xs) :=
  inferInstanceAs (Decidable (xs.Nodup ∧ Seg m none l.head xs l.tail none))

/-- A call a client makes on its list handle. -/
inductive Call where
  | add (position : llist_position) (where_ : Option Ptr) (node : Option Ptr)
  | remove (node : Option Ptr)
  | head
  | tail
  | current
  | previous
  | next

/-- One call of a client on the state and its handle; `none` when the call does not return
within the fuel. -/
def run_call (fuel : Nat) (c : Call) (r : State × Option llist) : Option (State × Option llist) :=
  match c with
  | Call.add position where_ node => some (llist_add r.1 r.2 position where_ node)
  | Call.remove node => llist_remove fuel r.1 r.2 node
  | Call.head => some (r.1, (llist_head r.2).1)
  | Call.tail => some (r.1, (llist_tail r.2).1)
  | Call.current => some r
  | Call.previous => some (r.1, (llist_previous r.1.mem r.2).1)
  | Call.next => some (r.1, (llist_next r.1.mem r.2).1)

/-- A client program: calls made one after the other on one handle. -/
def run_calls (fuel : Nat) : List Call → State × Option llist → Option (State × Option llist)
  | [], r => some r
  | c :: cs, r => (run_call fuel c r).bind (run_calls fuel cs)

/-- An empty memory: every node zeroed. -/
def Mem.zero : Mem :=
  { nodes := fun _ => { previous := none, next := none, payload := none }, user := fun _ => 0 }

/-- The initial state: zeroed memory, nothing called yet. -/
def State.init : State := { mem := Mem.zero, trace := [] }

/-- A client's view of its list after a run: the head-to-tail walk. -/
def forward_walk (fuel : Nat) (r : Option (State × Option llist)) : Option (List Ptr) :=
  r.bind fun r => r.2.bind fun l => walk_next r.1.mem fuel l.head

/-- A client's view of its list after a run: the tail-to-head walk. -/
def backward_walk (fuel : Nat) (r : Option (State × Option llist)) : Option (List Ptr) :=
  r.bind fun r => r.2.bind fun l => walk_previous r.1.mem fuel l.tail

/-- A field of a node after a run. -/
def node_after (r : Option (State × Option llist)) (p : Ptr) : Option llist_node :=
  r.map fun r => r.1.mem.nodes p

/-- The handle after a run. -/
def handle_after (r : Option (State × Option llist)) : Option llist :=
  r.bind fun r => r.2

/-- Example memory: the two nodes `1` and `2` linked as the list `1, 2`. -/
def example_mem : Mem :=
  { nodes := fun q =>
      if q = 1 then { previous := none, next := some 2, payload := none }
      else if q = 2 then { previous := some 1, next := none, payload := none }
      else { previous := none, next := none, payload := none },
    user := fun _ => 0 }

/-- Example state around `example_mem`. -/
def example_state : State := { mem := example_mem, trace := [] }

/-- Example handle on the list `1, 2`, cursor on node `2`, no hook bound. -/
def example_list : llist := { llist.zero with head := some 1, tail := some 2, current := some 2 }

/-- Example free hook: it releases the node it is given (the storage reads as zeroed
afterwards) and touches no other node. -/
def example_free_node (m : Mem) (p : Ptr) : Mem :=
  { m with nodes := fun q =>
      if q = p then { previous := none, next := none, payload := none } else m.nodes q }

/-- Example handle on the list `1, 2` with `example_free_node` bound as the free hook. -/
def example_list_free : llist := { example_list with free_node := some example_free_node }

/-- The `id` of the item a node carries, `((item *)node->payload)->id` in `test-llist.c`;
`none` for a `NULL` payload. -/
def item_id (m : Mem) (a : Ptr) : Option Int :=
  (m.nodes a).payload.map m.user

/-- The handle after `j` consecutive calls of `llist_previous`. -/
def repeat_previous (m : Mem) : Nat → Option llist → Option llist
  | 0, ll => ll
  | j + 1, ll => repeat_previous m j (llist_previous m ll).1

/-- The handle after `j` consecutive calls of `llist_next`. -/
def repeat_next (m : Mem) : Nat → Option llist → Option llist
  | 0, ll => ll
  | j + 1, ll => repeat_next m j (llist_next m ll).1

/-- Example allocator state: the heap is the address range from `1` up to, not including,
the break, which is kept in the caller-owned cell `0`. -/
def example_brk (u : Ptr → Int) : Nat := (u 0).toNat + 1

/-- Example duplicate hook, after `dup_node` of `test-llist.c` with a bump allocator in place
of `malloc`: a new node and a new item are taken at the break, the `id` of the source item
is copied, and the new node comes back zeroed with the new item as payload. -/
def example_dup_node (m : Mem) (p : Ptr) : Option Ptr × Mem :=
  let d := example_brk m.user
  let u1 : Ptr → Int := fun y => if y = 0 then (d : Int) else m.user y
  let id : Int := match (m.nodes p).payload with
    | some q => u1 q
    | none => 0
  (some d,
    { nodes := fun x =>
        if x = d then { previous := none, next := none, payload := some d } else m.nodes x,
      user := fun y => if y = d then id else u1 y })

/-- Example memory with items: the list `1, 2`, node `k` carrying the item at address `k`
with `id` `10 * k`; the break is `3`. -/
def example_mem_items : Mem :=
  { nodes := fun q =>
      if q = 1 then { previous := none, next := some 2, payload := some 1 }
      else if q = 2 then { previous := some 1, next := none, payload := some 2 }
      else { previous := none, next := none, payload := none },
    user := fun y => if y = 0 then 2 else if y = 1 then 10 else if y = 2 then 20 else 0 }

/-- Example state around `example_mem_items`. -/
def example_state_items : State := { mem := example_mem_items, trace := [] }

/-- Example handle on the list `1, 2` with the duplicate hook `example_dup_node` and the
compare hook `cmp_node` bound. -/
def example_list_dup : llist :=
  { example_list with dup_node := some example_dup_node, cmp_node := some cmp_node }

/-- Example handle on the list `1, 2` with `example_dup_node`, `cmp_node` and
`example_free_node` bound. -/
def example_list_dup_free : llist :=
  { example_list_dup with free_node := some example_free_node }

/-- Example handle on the list `1, 2` with only the compare hook `cmp_node` bound. -/
def example_list_cmp : llist := { example_list with cmp_node := some cmp_node }

/-- The contract of a duplicate hook that never fails and returns a fresh node carrying a
fresh copy of the payload. The heap is the address range from `lo` up to, not including,
the allocator's break `brk`, which the caller keeps in its own storage. On every memory `m`
and node `p` the hook returns a node `d` with a payload `q`, both taken at or above the break
and below the new break; it leaves the nodes below the old break and the caller-owned cells
of the old heap as they are; and the copy compares equal to the original under `c`. -/
def DupContract (lo : Nat) (brk : (Ptr → Int) → Nat) (c : Mem → Ptr → Ptr → Int)
    (f : Mem → Ptr → Option Ptr × Mem) : Prop :=
  ∀ m p, ∃ d q : Nat,
    (f m p).1 = some d ∧ ((f m p).2.nodes d).payload = some q ∧
    brk m.user ≤ d ∧ d < brk (f m p).2.user ∧
    brk m.user ≤ q ∧ q < brk (f m p).2.user ∧
    (∀ x : Nat, x < brk m.user → (f m p).2.nodes x = m.nodes x) ∧
    (∀ y : Nat, lo ≤ y → y < brk m.user → (f m p).2.user y = m.user y) ∧
    c (f m p).2 d p = 0

/-- A compare hook that looks at the payloads only: its result on two nodes is the same in
two memories in which the two payload pointers and what they point to are the same. -/
def CmpLocal (c : Mem → Ptr → Ptr → Int) : Prop :=
  ∀ m m' a b,
    (m'.nodes a).payload = (m.nodes a).payload → (m'.nodes b).payload = (m.nodes b).payload →
    (∀ q, (m.nodes a).payload = some q → m'.user q = m.user q) →
    (∀ q, (m.nodes b).payload = some q → m'.user q = m.user q) →
    c m' a b = c m a b

/-- Comparing equal is transitive through a node that carries a payload. -/
def CmpTrans (c : Mem → Ptr → Ptr → Int) : Prop :=
  ∀ m a b d, (m.nodes b).payload ≠ none → c m a b = 0 → c m b d = 0 → c m a d = 0

/-- The state of the loop of `llist_dup` between two iterations, for a source list whose
nodes and items lie below the break `B0` of the memory `m0` the call started in: `done` are
the source nodes walked over, `zs` those still to come from `p` on, `ys` the nodes of the
new list `nl`, all taken at or above `B0`, each comparing equal to its source node. The
items of the source nodes, where they carry one, lie in the heap below `B0`. -/
structure DupInv (lo : Nat) (brk : (Ptr → Int) → Nat) (c : Mem → Ptr → Ptr → Int)
    (f : Mem → Ptr → Option Ptr × Mem) (B0 : Nat) (m0 m : Mem) (nl : llist)
    (ys done zs : List Ptr) (p : Option Ptr) : Prop where
  hook : nl.dup_node = some f
  src : ∃ prev last, Seg m prev p zs last none
  src_old : ∀ x ∈ done ++ zs, B0 > x
  src_items : ∀ x ∈ done ++ zs, ∀ q : Nat, (m0.nodes x).payload = some q → lo ≤ q ∧ q < B0
  lo_le : lo ≤ B0
  brk_le : B0 ≤ brk m.user
  wf : WellFormed m nl ys
  fresh : ∀ y ∈ ys, B0 ≤ y ∧ brk m.user > y
  items : ∀ y ∈ ys, ∃ q : Nat, (m.nodes y).payload = some q ∧ B0 ≤ q ∧ q < brk m.user
  rel : List.Forall₂ (fun y x => c m y x = 0) ys done
  frame_nodes : ∀ x : Nat, x < B0 → m.nodes x = m0.nodes x
  frame_user : ∀ y : Nat, lo ≤ y → y < B0 → m.user y = m0.user y

/-- Example memory for ten items: every node `q` carries the item at address `q`, whose
`id` is `q`, except that the item at `11` (the needle's) has `id` `5`. -/
def example_mem_ten : Mem :=
  { nodes := fun q => { previous := none, next := none, payload := some q },
    user := fun y => if y = 11 then 5 else (y : Int) }

/-- Example run: on a new handle with `cmp_node` and `example_free_node` bound, the nodes
`1` to `10` are inserted at the tail, one after the other. -/
def example_ten : State × Option llist :=
  [1, 2, 3, 4, 5, 6, 7, 8, 9, 10].foldl
    (fun r k => llist_add r.1 r.2 llist_position.tail none (some k))
    ({ mem := example_mem_ten, trace := [] },
      llist_set_free (llist_set_cmp (llist_new true) (some cmp_node)) (some example_free_node))

/-- The handle of `example_ten`. -/
def example_ten_list : llist := example_ten.2.getD llist.zero

/-- The function `llist_position_string_to_type`; a C string is its text up to the
terminating NUL, `none` is the `NULL` pointer, and `strcmp(a, b) == 0` is equality of texts. -/
def llist_position_string_to_type (string : Option String) : llist_position :=
  match string with
  | none => llist_position.tail
  | some str =>
    if str = "tail" then llist_position.tail
    else if str = "head" then llist_position.head
    else if str = "before" then llist_position.before
    else if str = "after" then llist_position.after
    else llist_position.tail

/-- The function `llist_position_type_to_string`; the four enumerators are the only values of
`llist_position`, so the `return "tail"` after the `switch` is not reached. -/
def llist_position_type_to_string (position : llist_position) : String :=
  match position with
  | llist_position.tail => "tail"
  | llist_position.head => "head"
  | llist_position.before => "before"
  | llist_position.after => "after"

/-- The nodes of a list as the head-to-tail walk reports them (none when the walk does not
end within the fuel). -/
def nodes_of (fuel : Nat) (m : Mem) (l : llist) : List Ptr :=
  (walk_next m fuel l.head).getD []

/-- The calls that are to keep a list with nodes `xs` well-formed: `llist_add` at `Head`, at
`Tail`, at `Before` when the reference resolves to a member, at `After` when the reference
resolves to the current tail (to nothing on the empty list, whose tail is `NULL`), the linked
node not being in the list and a bound duplicate hook leaving the nodes of the list as they
are; and `llist_remove` of a member, a bound free hook writing to no node but the one it is
given. -/
def CallOk (s : State) (l : llist) (xs : List Ptr) : Call → Prop
  | Call.add position where_ (some n) =>
    ∃ s1 a, llist_add_added s l n = (s1, some a) ∧
      (∀ x ∈ xs, s1.mem.nodes x = s.mem.nodes x) ∧ a ∉ xs ∧
      (match position with
        | llist_position.head => True
        | llist_position.tail => True
        | llist_position.before => ∃ r ∈ xs, llist_add_where where_ l.current l.head = some r
        | llist_position.after => llist_add_where where_ l.current l.tail = l.tail)
  | Call.remove (some x) =>
    x ∈ xs ∧ ∀ f, l.free_node = some f → ∀ m q, q ≠ x → (f m x).nodes q = m.nodes q
  | _ => False

/-- A sequence of calls each of which is `CallOk` for the list as it stands when the call is
made, and returns. -/
def Permitted (fuel : Nat) : List Call → State → llist → Prop
  | [], _, _ => True
  | c :: cs, s, l =>
    CallOk s l (nodes_of fuel s.mem l) c ∧
      match run_call fuel c (s, some l) with
      | some (s', some l') => Permitted fuel cs s' l'
      | _ => False

/-- Example client program on an empty list: node `1` at the tail, node `2` at the head,
node `3` before node `1`, node `4` after the tail `1`, then node `2` removed. -/
def example_calls : List Call :=
  [Call.add llist_position.tail none (some 1), Call.add llist_position.head none (some 2),
    Call.add llist_position.before (some 1) (some 3),
    Call.add llist_position.after (some 1) (some 4), Call.remove (some 2)]

/-! ## Memory writes and segments -/

@[simp] theorem set_previous_previous (m : Mem) (p q : Ptr) (v : Option Ptr) :
    ((set_previous m p v).nodes q).previous = if q = p then v else (m.nodes q).previous := by
  unfold set_previous; by_cases h : q = p <;> simp [h]

@[simp] theorem set_previous_next (m : Mem) (p q : Ptr) (v : Option Ptr) :
    ((set_previous m p v).nodes q).next = (m.nodes q).next := by
  unfold set_previous; by_cases h : q = p <;> simp [h]

@[simp] theorem set_previous_payload (m : Mem) (p q : Ptr) (v : Option Ptr) :
    ((set_previous m p v).nodes q).payload = (m.nodes q).payload := by
  unfold set_previous; by_cases h : q = p <;> simp [h]

@[simp] theorem set_next_next (m : Mem) (p q : Ptr) (v : Option Ptr) :
    ((set_next m p v).nodes q).next = if q = p then v else (m.nodes q).next := by
  unfold set_next; by_cases h : q = p <;> simp [h]

@[simp] theorem set_next_previous (m : Mem) (p q : Ptr) (v : Option Ptr) :
    ((set_next m p v).nodes q).previous = (m.nodes q).previous := by
  unfold set_next; by_cases h : q = p <;> simp [h]

@[simp] theorem set_next_payload (m : Mem) (p q : Ptr) (v : Option Ptr) :
    ((set_next m p v).nodes q).payload = (m.nodes q).payload := by
  unfold set_next; by_cases h : q = p <;> simp [h]

@[simp] theorem set_previous_user (m : Mem) (p : Ptr) (v : Option Ptr) :
    (set_previous m p v).user = m.user := rfl

@[simp] theorem set_next_user (m : Mem) (p : Ptr) (v : Option Ptr) :
    (set_next m p v).user = m.user := rfl

/-- A segment only depends on the links of its own nodes. -/
theorem seg_congr (m m' : Mem) (xs : List Ptr) :
    ∀ (prev p last nxt : Option Ptr),
      (∀ x ∈ xs, (m'.nodes x).previous = (m.nodes x).previous ∧
        (m'.nodes x).next = (m.nodes x).next) →
      Seg m prev p xs last nxt → Seg m' prev p xs last nxt := by
  induction xs with
  | nil => intro prev p last nxt _ h; exact h
  | cons x xs ih =>
    intro prev p last nxt hx h
    obtain ⟨hp, hprev, hrest⟩ := h
    have hx0 := hx x (List.mem_cons_self x xs)
    refine ⟨hp, by rw [hx0.1]; exact hprev, ?_⟩
    rw [hx0.2]
    exact ih _ _ _ _ (fun y hy => hx y (List.mem_cons_of_mem x hy)) hrest

/-- Segments compose and split at any point. -/
theorem seg_append (m : Mem) (xs ys : List Ptr) :
    ∀ (prev p last nxt : Option Ptr),
      Seg m prev p (xs ++ ys) last nxt ↔
        ∃ mid midn, Seg m prev p xs mid midn ∧ Seg m mid midn ys last nxt := by
  induction xs with
  | nil =>
    intro prev p last nxt
    constructor
    · intro h; exact ⟨prev, p, ⟨rfl, rfl⟩, h⟩
    · rintro ⟨mid, midn, ⟨h1, h2⟩, h⟩
      subst h1; subst h2; exact h
  | cons x xs ih =>
    intro prev p last nxt
    constructor
    · rintro ⟨hp, hprev, hrest⟩
      obtain ⟨mid, midn, h1, h2⟩ := (ih _ _ _ _).1 hrest
      exact ⟨mid, midn, ⟨hp, hprev, h1⟩, h2⟩
    · rintro ⟨mid, midn, ⟨hp, hprev, h1⟩, h2⟩
      exact ⟨hp, hprev, (ih _ _ _ _).2 ⟨mid, midn, h1, h2⟩⟩

/-- A segment ending in the node `t`. -/
theorem seg_snoc (m : Mem) (xs : List Ptr) (t : Ptr) (prev p last nxt : Option Ptr) :
    Seg m prev p (xs ++ [t]) last nxt ↔
      ∃ mid, Seg m prev p xs mid (some t) ∧ (m.nodes t).previous = mid ∧
        (m.nodes t).next = nxt ∧ last = some t := by
  rw [seg_append]
  constructor
  · rintro ⟨mid, midn, h1, hp, hprev, hn, hl⟩
    subst hp
    exact ⟨mid, h1, hprev, hn, hl⟩
  · rintro ⟨mid, h1, hprev, hn, hl⟩
    exact ⟨mid, some t, h1, rfl, hprev, hn, hl⟩

/-- The forward walk over a segment that ends in `NULL` lists its nodes. -/
theorem walk_next_of_seg (m : Mem) (xs : List Ptr) :
    ∀ (prev p last : Option Ptr) (fuel : Nat), xs.length ≤ fuel →
      Seg m prev p xs last none → walk_next m fuel p = some xs := by
  induction xs with
  | nil =>
    intro prev p last fuel _ h
    obtain ⟨hp, _⟩ := h
    subst hp
    cases fuel <;> rfl
  | cons x xs ih =>
    intro prev p last fuel hf h
    obtain ⟨hp, _, hrest⟩ := h
    subst hp
    cases fuel with
    | zero => simp at hf
    | succ k =>
      have hk : xs.length ≤ k := by simpa using hf
      simp [walk_next, ih _ _ _ k hk hrest]

/-- The backward walk from the last node of a segment that starts with `previous = NULL`
lists its nodes in reverse. -/
theorem walk_previous_of_seg (m : Mem) (xs : List Ptr) :
    ∀ (p last nxt : Option Ptr) (fuel : Nat), xs.length ≤ fuel →
      Seg m none p xs last nxt → walk_previous m fuel last = some xs.reverse := by
  induction xs using List.reverseRecOn with
  | nil =>
    intro p last nxt fuel _ h
    obtain ⟨_, hl⟩ := h
    subst hl
    cases fuel <;> rfl
  | append_singleton xs t ih =>
    intro p last nxt fuel hf h
    obtain ⟨mid, h1, hprev, _, hl⟩ := (seg_snoc _ _ _ _ _ _ _).1 h
    subst hl
    cases fuel with
    | zero => simp at hf
    | succ k =>
      have hk : xs.length ≤ k := by simpa using hf
      simp [walk_previous, hprev, ih _ _ _ k hk h1]

/-- The head of a segment is its first node. -/
theorem seg_head_eq (m : Mem) (x : Ptr) (xs : List Ptr) (prev p last nxt : Option Ptr)
    (h : Seg m prev p (x :: xs) last nxt) : p = some x := h.1

/-- In a well-formed list the head is `NULL` exactly when there is no node. -/
theorem wf_head_none_iff (m : Mem) (l : llist) (xs : List Ptr) (h : WellFormed m l xs) :
    l.head = none ↔ xs = [] := by
  obtain ⟨_, hs⟩ := h
  cases xs with
  | nil => simp [hs.1]
  | cons x xs => simp [hs.1]

/-- In a well-formed list the tail is `NULL` exactly when there is no node. -/
theorem wf_tail_none_iff (m : Mem) (l : llist) (xs : List Ptr) (h : WellFormed m l xs) :
    l.tail = none ↔ xs = [] := by
  obtain ⟨_, hs⟩ := h
  rcases List.eq_nil_or_concat xs with rfl | ⟨ys, t, rfl⟩
  · simp [hs.2]
  · rw [List.concat_eq_append] at hs
    obtain ⟨mid, _, _, _, hl⟩ := (seg_snoc _ _ _ _ _ _ _).1 hs
    simp [hl]

/-! ## Insertion -/
/-- Appending at the tail, stated for the node `a` that is linked and the state `s1` the
duplicate hook (if any) left. -/
theorem add_tail_linked (s s1 : State) (l : llist) (xs : List Ptr) (w : Option Ptr) (n a : Ptr)
    (hadd : llist_add_added s l n = (s1, some a)) (hwf : WellFormed s1.mem l xs)
    (ha : a ∉ xs) :
    ∃ s' l', llist_add s (some l) llist_position.tail w (some n) = (s', some l') ∧
      WellFormed s'.mem l' (xs ++ [a]) ∧ l'.tail = some a ∧ l'.current = some a ∧
      (∀ t, l.tail = some t → (s'.mem.nodes t).next = some a) ∧
      (s'.mem.nodes a).previous = l.tail ∧ (s'.mem.nodes a).next = none ∧
      (xs = [] → l'.head = some a) ∧ (xs ≠ [] → l'.head = l.head) := by
  obtain ⟨hnd, hseg⟩ := hwf
  rcases List.eq_nil_or_concat xs with rfl | ⟨ys, t, rfl⟩
  · obtain ⟨hh, ht⟩ := hseg
    refine ⟨_, _, by simp [llist_add, hadd, hh, ht]; exact ⟨rfl, rfl⟩, ?_⟩
    simp [WellFormed, Seg, ht]
  · rw [List.concat_eq_append] at hseg hnd ha ⊢
    obtain ⟨mid, h1, hprev, hnext, hl⟩ := (seg_snoc _ _ _ _ _ _ _).1 hseg
    have hat : a ≠ t := by intro h; apply ha; simp [h]
    have hta : t ≠ a := fun h => hat h.symm
    have hays : a ∉ ys := by intro h; apply ha; simp [h]
    have htys : t ∉ ys := by
      intro h
      have := List.nodup_append.1 hnd
      exact this.2.2 h (List.mem_singleton_self t) 
    have hhead : l.head ≠ none := by
      intro h
      have := (wf_head_none_iff s1.mem l (ys ++ [t]) ⟨hnd, hseg⟩).1 h
      simp at this
    refine ⟨_, _, by simp [llist_add, hadd, hl, hhead]; exact ⟨rfl, rfl⟩, ?_⟩
    simp [WellFormed, hat, hta, hl]
    refine ⟨?_, ?_⟩
    · have : ys ++ [t, a] = (ys ++ [t]) ++ [a] := by simp
      rw [this]
      exact List.nodup_append.2 ⟨hnd, List.nodup_singleton a, by
        intro x hx hx2
        rw [List.mem_singleton] at hx2
        subst hx2
        exact ha hx⟩
    · refine (seg_append _ ys [t, a] _ _ _ _).2 ⟨mid, some t, ?_, ?_⟩
      · refine seg_congr s1.mem _ ys _ _ _ _ ?_ h1
        intro x hx
        have hxa : x ≠ a := fun h => hays (h ▸ hx)
        have hxt : x ≠ t := fun h => htys (h ▸ hx)
        simp [hxa, hxt]
      · simp [Seg, hat, hta, hprev]


/-- Inserting at the head, stated for the node `a` that is linked and the state `s1` the
duplicate hook (if any) left. -/
theorem add_head_linked (s s1 : State) (l : llist) (xs : List Ptr) (w : Option Ptr) (n a : Ptr)
    (hadd : llist_add_added s l n = (s1, some a)) (hwf : WellFormed s1.mem l xs)
    (ha : a ∉ xs) :
    ∃ s' l', llist_add s (some l) llist_position.head w (some n) = (s', some l') ∧
      WellFormed s'.mem l' (a :: xs) ∧ l'.head = some a ∧ l'.current = some a ∧
      (s'.mem.nodes a).next = l.head ∧ (s'.mem.nodes a).previous = none ∧
      (∀ h, l.head = some h → (s'.mem.nodes h).previous = some a) ∧
      (xs = [] → l'.tail = some a) ∧ (xs ≠ [] → l'.tail = l.tail) := by
  obtain ⟨hnd, hseg⟩ := hwf
  cases xs with
  | nil =>
    obtain ⟨hh, ht⟩ := hseg
    refine ⟨_, _, by simp [llist_add, hadd, hh, ht]; exact ⟨rfl, rfl⟩, ?_⟩
    simp [WellFormed, Seg, hh]
  | cons h ys =>
    obtain ⟨hh, hprev, hrest⟩ := hseg
    have hah : a ≠ h := by intro e; apply ha; simp [e]
    have hha : h ≠ a := fun e => hah e.symm
    have hays : a ∉ ys := by intro e; apply ha; simp [e]
    have hhys : h ∉ ys := (List.nodup_cons.1 hnd).1
    have htail : l.tail ≠ none := by
      intro e
      have := (wf_tail_none_iff s1.mem l (h :: ys) ⟨hnd, hh, hprev, hrest⟩).1 e
      simp at this
    refine ⟨_, _, by simp [llist_add, hadd, hh, htail]; exact ⟨rfl, rfl⟩, ?_⟩
    simp [WellFormed, hah, hha, hh]
    refine ⟨⟨hays, List.nodup_cons.1 hnd⟩, ?_⟩
    · simp [Seg, hah, hha]
      refine seg_congr s1.mem _ ys _ _ _ _ ?_ hrest
      intro x hx
      have hxa : x ≠ a := fun e => hays (e ▸ hx)
      have hxh : x ≠ h := fun e => hhys (e ▸ hx)
      simp [hxa, hxh]

/-- Inserting before the member `r`, stated for the node `a` that is linked and the state `s1`
the duplicate hook (if any) left; `r` is the reference the call resolves. -/
theorem add_before_linked (s s1 : State) (l : llist) (ys zs : List Ptr) (w : Option Ptr)
    (n a r : Ptr)
    (hadd : llist_add_added s l n = (s1, some a))
    (hwf : WellFormed s1.mem l (ys ++ r :: zs)) (ha : a ∉ ys ++ r :: zs)
    (hr : llist_add_where w l.current l.head = some r) :
    ∃ s' l', llist_add s (some l) llist_position.before w (some n) = (s', some l') ∧
      WellFormed s'.mem l' (ys ++ a :: r :: zs) ∧ l'.current = some a ∧
      (s'.mem.nodes a).next = some r ∧ (s'.mem.nodes r).previous = some a ∧
      (s'.mem.nodes a).previous = (s1.mem.nodes r).previous ∧
      (∀ p, (s1.mem.nodes r).previous = some p → (s'.mem.nodes p).next = some a) ∧
      (l.head = some r → l'.head = some a) ∧ (l.head ≠ some r → l'.head = l.head) ∧
      l'.tail = l.tail := by
  obtain ⟨hnd, hseg⟩ := hwf
  obtain ⟨mid, midn, hys, hmidn, hprev, hzs⟩ := (seg_append _ ys (r :: zs) _ _ _ _).1 hseg
  subst hmidn
  have har : a ≠ r := by intro e; apply ha; simp [e]
  have hra : r ≠ a := fun e => har e.symm
  have hays : a ∉ ys := by intro e; apply ha; simp [e]
  have hazs : a ∉ zs := by intro e; apply ha; simp [e]
  have hnd2 := List.nodup_append.1 hnd
  have hrys : r ∉ ys := fun e => hnd2.2.2 e (List.mem_cons_self r zs)
  have hrzs : r ∉ zs := (List.nodup_cons.1 hnd2.2.1).1
  have hhead : l.head ≠ none := by
    intro e
    have := (wf_head_none_iff s1.mem l (ys ++ r :: zs) ⟨hnd, hseg⟩).1 e
    simp at this
  have htail : l.tail ≠ none := by
    intro e
    have := (wf_tail_none_iff s1.mem l (ys ++ r :: zs) ⟨hnd, hseg⟩).1 e
    simp at this
  have hnd' : (ys ++ a :: r :: zs).Nodup := by
    refine List.nodup_append.2 ⟨hnd2.1, List.nodup_cons.2 ⟨?_, hnd2.2.1⟩, ?_⟩
    · intro e
      exact ha (List.mem_append_right ys e)
    · intro x hx hx2
      rcases List.mem_cons.1 hx2 with e | e
      · exact hays (e ▸ hx)
      · exact hnd2.2.2 hx e
  rcases List.eq_nil_or_concat ys with rfl | ⟨ys0, p, rfl⟩
  · -- `r` is the head
    obtain ⟨hh, hm⟩ := hys
    subst hm
    rw [hh] at hr
    refine ⟨_, _, by simp [llist_add, hadd, hr, hra, hprev, hh, htail]; exact ⟨rfl, rfl⟩, ?_⟩
    simp [WellFormed, hprev, har, hra, hh, Seg]
    refine ⟨⟨hazs, hrzs, (List.nodup_cons.1 hnd2.2.1).2⟩, ?_⟩
    refine seg_congr s1.mem _ zs _ _ _ _ ?_ hzs
    intro x hx
    have hxa : x ≠ a := fun e => hazs (e ▸ hx)
    have hxr : x ≠ r := fun e => hrzs (e ▸ hx)
    simp [hxa, hxr]
  · rw [List.concat_eq_append] at hys hnd hnd' hays hrys hnd2 ha ⊢
    obtain ⟨mid0, hys0, hpprev, hpnext, hmid⟩ := (seg_snoc _ _ _ _ _ _ _).1 hys
    subst hmid
    have hap : a ≠ p := by intro e; apply hays; simp [e]
    have hpa : p ≠ a := fun e => hap e.symm
    have hrp : r ≠ p := by intro e; apply hrys; simp [e]
    have hpr : p ≠ r := fun e => hrp e.symm
    have hays0 : a ∉ ys0 := by intro e; apply hays; simp [e]
    have hrys0 : r ∉ ys0 := by intro e; apply hrys; simp [e]
    have hpys0 : p ∉ ys0 := fun e => (List.nodup_append.1 hnd2.1).2.2 e (List.mem_singleton_self p)
    have hpzs : p ∉ zs := fun e =>
      hnd2.2.2 (List.mem_append_right ys0 (List.mem_singleton_self p)) (List.mem_cons_of_mem r e)
    have hhr : l.head ≠ some r := by
      intro e
      cases ys0 with
      | nil => rw [hys0.1] at e; exact hpr (Option.some.inj e)
      | cons y ys1 =>
        rw [hys0.1] at e
        exact hrys0 (by rw [← Option.some.inj e]; exact List.mem_cons_self y ys1)
    refine ⟨_, _, by simp [llist_add, hadd, hr, hra, hprev, hhead, htail, hhr]; exact ⟨rfl, rfl⟩, ?_⟩
    simp [WellFormed, hprev, har, hra, hap, hpa, hrp, hpr, hhr]
    refine ⟨by simpa using hnd', ?_⟩
    have e1 : ys0 ++ p :: a :: r :: zs = ys0 ++ ([p, a, r] ++ zs) := by simp
    rw [e1]
    refine (seg_append _ ys0 _ _ _ _ _).2 ⟨mid0, some p, ?_, ?_⟩
    · refine seg_congr s1.mem _ ys0 _ _ _ _ ?_ hys0
      intro x hx
      have hxa : x ≠ a := fun e => hays0 (e ▸ hx)
      have hxr : x ≠ r := fun e => hrys0 (e ▸ hx)
      have hxp : x ≠ p := fun e => hpys0 (e ▸ hx)
      simp [hxa, hxr, hxp]
    · simp [Seg, hprev, har, hra, hap, hpa, hrp, hpr, hpprev]
      refine seg_congr s1.mem _ zs _ _ _ _ ?_ hzs
      intro x hx
      have hxa : x ≠ a := fun e => hazs (e ▸ hx)
      have hxr : x ≠ r := fun e => hrzs (e ▸ hx)
      have hxp : x ≠ p := fun e => hpzs (e ▸ hx)
      simp [hxa, hxr, hxp]


/-! ## Removal -/

/-- The last node of a non-empty segment is one of its nodes. -/
theorem seg_last_mem (m : Mem) (xs : List Ptr) (prev p last nxt : Option Ptr)
    (h : Seg m prev p xs last nxt) (hne : xs ≠ []) : ∃ t, last = some t ∧ t ∈ xs := by
  rcases List.eq_nil_or_concat xs with rfl | ⟨ys, t, rfl⟩
  · exact absurd rfl hne
  · rw [List.concat_eq_append] at h ⊢
    obtain ⟨_, _, _, _, hl⟩ := (seg_snoc _ _ _ _ _ _ _).1 h
    exact ⟨t, hl, by simp⟩

/-- Redirecting the `next` link that leaves a segment: the writes may change the `next` of
the segment's last node only. -/
theorem seg_set_end (m m' : Mem) (e' : Option Ptr) (ys : List Ptr) :
    ∀ (prev p mid e : Option Ptr), Seg m prev p ys mid e → ys.Nodup →
      (∀ y ∈ ys, (m'.nodes y).previous = (m.nodes y).previous) →
      (∀ y ∈ ys, mid ≠ some y → (m'.nodes y).next = (m.nodes y).next) →
      (∀ y ∈ ys, mid = some y → (m'.nodes y).next = e') →
      Seg m' prev (if ys = [] then e' else p) ys mid e' := by
  induction ys with
  | nil =>
    intro prev p mid e h _ _ _ _
    exact ⟨by simp, h.2⟩
  | cons y ys ih =>
    intro prev p mid e h hnd hprev hnext hend
    obtain ⟨hp, hyp, hrest⟩ := h
    have hy := List.mem_cons_self y ys
    have hyys : y ∉ ys := (List.nodup_cons.1 hnd).1
    refine ⟨by simpa using hp, by rw [hprev y hy]; exact hyp, ?_⟩
    by_cases hys : ys = []
    · subst hys
      obtain ⟨hn, hm⟩ := hrest
      exact ⟨hend y hy hm, hm⟩
    · obtain ⟨t, ht, htm⟩ := seg_last_mem _ _ _ _ _ _ hrest hys
      have hmy : mid ≠ some y := by
        rw [ht]; intro e1; exact hyys (Option.some.inj e1 ▸ htm)
      rw [hnext y hy hmy]
      have := ih _ _ _ _ hrest (List.nodup_cons.1 hnd).2
        (fun z hz => hprev z (List.mem_cons_of_mem y hz))
        (fun z hz => hnext z (List.mem_cons_of_mem y hz))
        (fun z hz => hend z (List.mem_cons_of_mem y hz))
      simpa [hys] using this

/-- Redirecting the `previous` link that enters a segment: the writes may change the
`previous` of the segment's first node only. -/
theorem seg_set_start (m m' : Mem) (pv' : Option Ptr) (zs : List Ptr)
    (pv p last nxt : Option Ptr) (h : Seg m pv p zs last nxt) (hnd : zs.Nodup)
    (hnext : ∀ z ∈ zs, (m'.nodes z).next = (m.nodes z).next)
    (hprev : ∀ z ∈ zs, p ≠ some z → (m'.nodes z).previous = (m.nodes z).previous)
    (hstart : ∀ z ∈ zs, p = some z → (m'.nodes z).previous = pv') :
    Seg m' pv' p zs (if zs = [] then pv' else last) nxt := by
  cases zs with
  | nil => exact ⟨h.1, by simp⟩
  | cons z zs =>
    obtain ⟨hp, _, hrest⟩ := h
    have hz := List.mem_cons_self z zs
    have hzzs : z ∉ zs := (List.nodup_cons.1 hnd).1
    refine ⟨hp, hstart z hz hp, ?_⟩
    rw [hnext z hz]
    simp only [if_neg (List.cons_ne_nil z zs)]
    refine seg_congr m m' zs _ _ _ _ ?_ hrest
    intro w hw
    refine ⟨hprev w (List.mem_cons_of_mem z hw) ?_, hnext w (List.mem_cons_of_mem z hw)⟩
    rw [hp]; intro e1; exact hzzs (Option.some.inj e1 ▸ hw)

/-- The search loop of `llist_remove` walks over a segment that does not hold the node. -/
theorem remove_loop_skip (node : Ptr) (s : State) (l : llist) (ys : List Ptr) :
    ∀ (prev p mid midn : Option Ptr) (fuel : Nat), Seg s.mem prev p ys mid midn → node ∉ ys →
      llist_remove_loop node (fuel + ys.length) s l p = llist_remove_loop node fuel s l midn := by
  induction ys with
  | nil =>
    intro prev p mid midn fuel h _
    rw [h.1]; rfl
  | cons y ys ih =>
    intro prev p mid midn fuel h hn
    obtain ⟨hp, _, hrest⟩ := h
    subst hp
    have hy : y ≠ node := by intro e; apply hn; simp [e]
    have hys : node ∉ ys := by intro e; apply hn; simp [e]
    have : fuel + (y :: ys).length = (fuel + ys.length) + 1 := by simp; omega
    rw [this]
    simp only [llist_remove_loop, if_neg hy]
    exact ih _ _ _ _ fuel hrest hys

/-- The `next` links after the splice writes, for a node that is not its own successor. -/
theorem splice_next (m : Mem) (x q : Ptr) (hn : (m.nodes x).next ≠ some x) :
    ((llist_remove_splice m x).nodes q).next =
      if (m.nodes x).previous = some q then (m.nodes x).next else (m.nodes q).next := by
  unfold llist_remove_splice
  cases h1 : (m.nodes x).next with
  | none =>
    cases h2 : (m.nodes x).previous with
    | none => simp [h2]
    | some pv => simp [h2, h1, eq_comm]
  | some nx =>
    have hx : x ≠ nx := by intro e; apply hn; rw [h1, ← e]
    cases h2 : (m.nodes x).previous with
    | none => simp [h2, hx]
    | some pv => simp [h2, h1, hx, eq_comm]

/-- The `previous` links after the splice writes, for a node that is not its own successor. -/
theorem splice_previous (m : Mem) (x q : Ptr) (hn : (m.nodes x).next ≠ some x) :
    ((llist_remove_splice m x).nodes q).previous =
      if (m.nodes x).next = some q then (m.nodes x).previous else (m.nodes q).previous := by
  unfold llist_remove_splice
  cases h1 : (m.nodes x).next with
  | none =>
    cases h2 : (m.nodes x).previous with
    | none => simp [h2]
    | some pv => simp [h2]
  | some nx =>
    have hx : x ≠ nx := by intro e; apply hn; rw [h1, ← e]
    cases h2 : (m.nodes x).previous with
    | none => simp [h2, hx, eq_comm]
    | some pv => simp [h2, hx, eq_comm]

/-- The splice writes leave every payload pointer as it is. -/
theorem splice_payload (m : Mem) (x q : Ptr) :
    ((llist_remove_splice m x).nodes q).payload = (m.nodes q).payload := by
  unfold llist_remove_splice
  cases h1 : (m.nodes x).next <;> simp <;>
    split <;> simp


/-- The first pointer of a segment that does not end at once is one of its nodes. -/
theorem seg_first_mem (m : Mem) (xs : List Ptr) (prev p last nxt : Option Ptr)
    (h : Seg m prev p xs last nxt) (hne : xs ≠ []) : ∃ t, p = some t ∧ t ∈ xs := by
  cases xs with
  | nil => exact absurd rfl hne
  | cons y ys => exact ⟨y, h.1, List.mem_cons_self y ys⟩

/-- Removing the member `x` of a well-formed list: the call returns, the memory is the spliced
one handed to the free hook (or to `free`), and the handle is updated. -/
theorem remove_member_spliced (s : State) (l : llist) (ys zs : List Ptr) (x : Ptr) (fuel : Nat)
    (hwf : WellFormed s.mem l (ys ++ x :: zs)) (hfuel : ys.length < fuel) :
    ∃ l', llist_remove fuel s (some l) (some x) =
        some ({ mem := match l.free_node with
                  | some f => f (llist_remove_splice s.mem x) x
                  | none => llist_remove_splice s.mem x,
                trace := s.trace ++ [match l.free_node with
                  | some _ => Event.free_node x
                  | none => Event.free x] }, some l') ∧
      WellFormed (llist_remove_splice s.mem x) l' (ys ++ zs) ∧
      (s.mem.nodes x).next ≠ some x ∧
      l'.head = (if l.head = some x then (s.mem.nodes x).next else l.head) ∧
      l'.tail = (if l.tail = some x then (s.mem.nodes x).previous else l.tail) ∧
      l'.current = (if l.current = some x then l'.head else l.current) := by
  obtain ⟨hnd, hseg⟩ := hwf
  obtain ⟨mid, midn, hys, hmidn, hprev, hzs⟩ := (seg_append _ ys (x :: zs) _ _ _ _).1 hseg
  subst hmidn
  have hnd2 := List.nodup_append.1 hnd
  have hxys : x ∉ ys := fun e => hnd2.2.2 e (List.mem_cons_self x zs)
  have hxzs : x ∉ zs := (List.nodup_cons.1 hnd2.2.1).1
  have hndzs : zs.Nodup := (List.nodup_cons.1 hnd2.2.1).2
  have hdisj : ∀ q, q ∈ ys → q ∈ zs → False := fun q h1 h2 =>
    hnd2.2.2 h1 (List.mem_cons_of_mem x h2)
  have hnext_mem : ∀ q, (s.mem.nodes x).next = some q → q ∈ zs := by
    intro q hq
    by_cases hz : zs = []
    · subst hz; rw [hzs.1] at hq; cases hq
    · obtain ⟨t, ht, htm⟩ := seg_first_mem _ _ _ _ _ _ hzs hz
      rw [ht] at hq; exact Option.some.inj hq ▸ htm
  have hprev_mem : ∀ q, mid = some q → q ∈ ys := by
    intro q hq
    by_cases hy : ys = []
    · subst hy; rw [hys.2] at hq; cases hq
    · obtain ⟨t, ht, htm⟩ := seg_last_mem _ _ _ _ _ _ hys hy
      rw [ht] at hq; exact Option.some.inj hq ▸ htm
  have hnx : (s.mem.nodes x).next ≠ some x := fun e => hxzs (hnext_mem x e)
  have hhead : l.head = some x ↔ ys = [] := by
    constructor
    · intro e
      by_contra hy
      obtain ⟨t, ht, htm⟩ := seg_first_mem _ _ _ _ _ _ hys hy
      rw [ht] at e; exact hxys (Option.some.inj e ▸ htm)
    · intro e; subst e; exact hys.1
  have htail : l.tail = some x ↔ zs = [] := by
    constructor
    · intro e
      by_contra hz
      obtain ⟨t, ht, htm⟩ := seg_last_mem _ _ _ _ _ _ hzs hz
      rw [ht] at e; exact hxzs (Option.some.inj e ▸ htm)
    · intro e; subst e; exact hzs.2
  have h1 := seg_set_end s.mem (llist_remove_splice s.mem x) (s.mem.nodes x).next ys
    none l.head mid (some x) hys hnd2.1
    (by
      intro y hy
      rw [splice_previous _ _ _ hnx, if_neg]
      intro e; exact hdisj y hy (hnext_mem y e))
    (by
      intro y _ hm
      rw [splice_next _ _ _ hnx, if_neg]
      rw [hprev]; exact hm)
    (by
      intro y _ hm
      rw [splice_next _ _ _ hnx, if_pos]
      rw [hprev]; exact hm)
  have h2 := seg_set_start s.mem (llist_remove_splice s.mem x) mid zs
    (some x) (s.mem.nodes x).next l.tail none hzs hndzs
    (by
      intro z hz
      rw [splice_next _ _ _ hnx, if_neg]
      rw [hprev]
      intro e; exact hdisj z (hprev_mem z e) hz)
    (by
      intro z _ hm
      rw [splice_previous _ _ _ hnx, if_neg hm])
    (by
      intro z _ hm
      rw [splice_previous _ _ _ hnx, if_pos hm, hprev])
  obtain ⟨k, rfl⟩ : ∃ k, fuel = (k + 1) + ys.length := ⟨fuel - ys.length - 1, by omega⟩
  have hloop := remove_loop_skip x s l ys _ _ _ _ (k + 1) hys hxys
  refine ⟨{ l with
      head := if l.head = some x then (s.mem.nodes x).next else l.head,
      tail := if l.tail = some x then (s.mem.nodes x).previous else l.tail,
      current := if l.current = some x then
          (if l.head = some x then (s.mem.nodes x).next else l.head) else l.current }, ?_, ?_, hnx, rfl, rfl, rfl⟩
  · simp only [llist_remove, hloop, llist_remove_loop, if_true]
    rw [splice_next _ _ _ hnx, splice_previous _ _ _ hnx]
    have hpx : (s.mem.nodes x).previous ≠ some x := by
      rw [hprev]; intro e; exact hxys (hprev_mem x e)
    simp only [if_neg hnx, if_neg hpx]
    cases hf : l.free_node <;> by_cases hh : l.head = some x <;>
      by_cases ht : l.tail = some x <;> by_cases hc : l.current = some x <;>
      simp [hf, hh, ht, hc]
    all_goals (cases l; simp_all)
  · refine ⟨?_, (seg_append _ ys zs _ _ _ _).2 ⟨mid, (s.mem.nodes x).next, ?_, ?_⟩⟩
    · exact List.nodup_append.2 ⟨hnd2.1, hndzs, fun q h1 h2 => hdisj q h1 h2⟩
    · simpa [hhead] using h1
    · simpa [htail, hprev] using h2


/-! ## The claims -/

/-- With no duplicate hook bound `added` is the node itself and no hook runs. -/
theorem llist_add_added_of_no_dup (s : State) (l : llist) (n : Ptr) (h : l.dup_node = none) :
    llist_add_added s l n = (s, some n) := by
  simp [llist_add_added, h]

/-- The reference a `before`/`after` call resolves: `where` if given, else the cursor if set,
else the default. -/
theorem llist_add_where_eq (w cur dflt : Option Ptr) (r : Ptr)
    (h : w = some r ∨ (w = none ∧ cur = some r) ∨ (w = none ∧ cur = none ∧ dflt = some r)) :
    llist_add_where w cur dflt = some r := by
  rcases h with h | ⟨h1, h2⟩ | ⟨h1, h2, h3⟩
  · simp [llist_add_where, h]
  · simp [llist_add_where, h1, h2]
  · simp [llist_add_where, h1, h2, h3]

/-- The head of a well-formed list is the first node of its sequence. -/
theorem wf_head_eq (m : Mem) (l : llist) (xs : List Ptr) (h : WellFormed m l xs) :
    l.head = xs.head? := by
  cases xs with
  | nil => simpa using h.2.1
  | cons x xs => simpa using h.2.1

/-- The forward walk of a well-formed list, on enough fuel, lists its nodes. -/
theorem wf_walk_next (m : Mem) (l : llist) (xs : List Ptr) (h : WellFormed m l xs)
    (fuel : Nat) (hf : xs.length ≤ fuel) : walk_next m fuel l.head = some xs :=
  walk_next_of_seg m xs _ _ _ fuel hf h.2

/-- The backward walk of a well-formed list, on enough fuel, lists its nodes in reverse. -/
theorem wf_walk_previous (m : Mem) (l : llist) (xs : List Ptr) (h : WellFormed m l xs)
    (fuel : Nat) (hf : xs.length ≤ fuel) : walk_previous m fuel l.tail = some xs.reverse :=
  walk_previous_of_seg m xs _ _ _ fuel hf h.2

/-- C2: on a well-formed list with node sequence `xs`, with no duplicate hook bound,
`llist_add(ll, Tail, _, n)` for a node `n` not in the list returns a well-formed list whose
head-to-tail order is `xs` followed by `n`; `tail == n`, the previous tail's `next` is `n`,
`n->previous` is the previous tail, and `head == n` when the list was empty. -/
theorem llist_add_tail_appends (s : State) (l : llist) (xs : List Ptr) (w : Option Ptr) (n : Ptr)
    (hdup : l.dup_node = none) (hwf : WellFormed s.mem l xs) (hn : n ∉ xs) :
    ∃ s' l', llist_add s (some l) llist_position.tail w (some n) = (s', some l') ∧
      WellFormed s'.mem l' (xs ++ [n]) ∧
      (∀ fuel, xs.length + 1 ≤ fuel → walk_next s'.mem fuel l'.head = some (xs ++ [n])) ∧
      l'.tail = some n ∧
      (∀ t, l.tail = some t → (s'.mem.nodes t).next = some n) ∧
      (s'.mem.nodes n).previous = l.tail ∧
      (xs = [] → l'.head = some n) := by
  obtain ⟨s', l', heq, hwf', ht, _, hnext, hprev, _, hhead, _⟩ :=
    add_tail_linked s s l xs w n n (llist_add_added_of_no_dup s l n hdup) hwf hn
  exact ⟨s', l', heq, hwf', fun fuel hf => wf_walk_next _ _ _ hwf' fuel (by simpa using hf),
    ht, hnext, hprev, hhead⟩

/-- Witness for C2: appending node `3` to the list `1, 2`. -/
theorem llist_add_tail_appends_witness :
    WellFormed example_state.mem example_list [1, 2] ∧ 3 ∉ [1, 2] ∧
    ∃ s' l', llist_add example_state (some example_list) llist_position.tail none (some 3)
        = (s', some l') ∧
      WellFormed s'.mem l' [1, 2, 3] ∧ l'.tail = some 3 ∧ (s'.mem.nodes 2).next = some 3 ∧
      (s'.mem.nodes 3).previous = some 2 := by
  have h1 : WellFormed example_state.mem example_list [1, 2] := by decide
  have h2 : 3 ∉ [1, 2] := by decide
  obtain ⟨s', l', heq, hwf, _, ht, hnext, hprev, _⟩ :=
    llist_add_tail_appends example_state example_list [1, 2] none 3 rfl h1 h2
  exact ⟨h1, h2, s', l', heq, hwf, ht, hnext 2 rfl, hprev⟩

/-- C4: on a well-formed non-empty list, `llist_add(ll, Before, where, n)` resolves the
reference `r` as `where` if given, else the cursor if set, else the head, and splices the
linked node `a` (`n` itself when no duplicate hook is bound, else the duplicate the hook
returned), which is not in the list, immediately before `r`: `a->next == r`,
`r->previous == a`, `a->previous` is the old predecessor `p` of `r`, `p->next == a` when `p`
exists, head becomes `a` exactly when `r` was the head, and the head-to-tail order is the old
order with `a` directly in front of `r`. -/
theorem llist_add_before_splices (s s1 : State) (l : llist) (ys zs : List Ptr) (w : Option Ptr)
    (n a r : Ptr)
    (hadd : llist_add_added s l n = (s1, some a))
    (hwf : WellFormed s1.mem l (ys ++ r :: zs)) (ha : a ∉ ys ++ r :: zs)
    (hr : w = some r ∨ (w = none ∧ l.current = some r) ∨
      (w = none ∧ l.current = none ∧ l.head = some r)) :
    ∃ s' l', llist_add s (some l) llist_position.before w (some n) = (s', some l') ∧
      (l.dup_node = none → a = n) ∧
      (s'.mem.nodes a).next = some r ∧ (s'.mem.nodes r).previous = some a ∧
      (s'.mem.nodes a).previous = (s1.mem.nodes r).previous ∧
      (∀ p, (s1.mem.nodes r).previous = some p → (s'.mem.nodes p).next = some a) ∧
      (l'.head = some a ↔ l.head = some r) ∧
      WellFormed s'.mem l' (ys ++ a :: r :: zs) ∧
      (∀ fuel, (ys ++ r :: zs).length + 1 ≤ fuel →
        walk_next s'.mem fuel l'.head = some (ys ++ a :: r :: zs)) := by
  obtain ⟨s', l', heq, hwf', _, h1, h2, h3, h4, h5, h6, _⟩ :=
    add_before_linked s s1 l ys zs w n a r hadd hwf ha (llist_add_where_eq _ _ _ _ hr)
  refine ⟨s', l', heq, ?_, h1, h2, h3, h4, ?_, hwf', ?_⟩
  · intro hd
    rw [llist_add_added_of_no_dup s l n hd] at hadd
    exact (Option.some.inj (Prod.mk.inj hadd).2).symm
  · constructor
    · intro e
      by_contra hne
      have hh := h6 hne
      have hmem : ∀ x, l.head = some x → x ∈ ys ++ r :: zs := by
        intro x hx
        have := wf_head_eq _ _ _ hwf
        rw [hx] at this
        exact List.mem_of_mem_head? this.symm
      exact ha (hmem a (by rw [← hh, e]))
    · exact h5
  · intro fuel hf
    exact wf_walk_next _ _ _ hwf' fuel (by simp at hf ⊢; omega)

/-- Witness for C4: `Before` with no reference and the cursor on node `2` of the list `1, 2`. -/
theorem llist_add_before_splices_witness :
    llist_add_added example_state example_list 3 = (example_state, some 3) ∧
    WellFormed example_state.mem example_list ([1] ++ 2 :: []) ∧ 3 ∉ [1] ++ 2 :: [] ∧
    ∃ s' l', llist_add example_state (some example_list) llist_position.before none (some 3)
        = (s', some l') ∧
      (s'.mem.nodes 3).next = some 2 ∧ (s'.mem.nodes 2).previous = some 3 ∧
      (s'.mem.nodes 1).next = some 3 ∧ WellFormed s'.mem l' [1, 3, 2] := by
  have h1 : WellFormed example_state.mem example_list ([1] ++ 2 :: []) := by decide
  have h2 : 3 ∉ [1] ++ 2 :: [] := by decide
  obtain ⟨s', l', heq, _, hn, hp, _, hpn, _, hwf, _⟩ :=
    llist_add_before_splices example_state example_state example_list [1] [] none 3 3 2 rfl h1 h2
      (Or.inr (Or.inl ⟨rfl, rfl⟩))
  exact ⟨rfl, h1, h2, s', l', heq, hn, hp, hpn 1 rfl, hwf⟩

/-- C5: on a well-formed list, after `llist_add(ll, Head, _, n)` the linked node `a` (`n`
itself when no duplicate hook is bound, else the duplicate the hook returned), which is not
in the list, is the head; if the list had at least one node then `a->next` is the previous
head and `a->next->previous == a`; if the list was empty, `tail == a` as well. -/
theorem llist_add_head_links (s s1 : State) (l : llist) (xs : List Ptr) (w : Option Ptr)
    (n a : Ptr)
    (hadd : llist_add_added s l n = (s1, some a)) (hwf : WellFormed s1.mem l xs)
    (ha : a ∉ xs) :
    ∃ s' l', llist_add s (some l) llist_position.head w (some n) = (s', some l') ∧
      (l.dup_node = none → a = n) ∧
      l'.head = some a ∧
      (xs ≠ [] → ∃ h, l.head = some h ∧ (s'.mem.nodes a).next = some h ∧
        (s'.mem.nodes h).previous = some a) ∧
      (xs = [] → l'.tail = some a) ∧
      WellFormed s'.mem l' (a :: xs) := by
  obtain ⟨s', l', heq, hwf', hh, _, hnext, _, hback, htail, _⟩ :=
    add_head_linked s s1 l xs w n a hadd hwf ha
  refine ⟨s', l', heq, ?_, hh, ?_, htail, hwf'⟩
  · intro hd
    rw [llist_add_added_of_no_dup s l n hd] at hadd
    exact (Option.some.inj (Prod.mk.inj hadd).2).symm
  · intro hne
    obtain ⟨h, hhd, _⟩ := seg_first_mem _ _ _ _ _ _ hwf.2 hne
    exact ⟨h, hhd, by rw [hnext, hhd], hback h hhd⟩

/-- Witness for C5: inserting node `3` at the head of the list `1, 2`. -/
theorem llist_add_head_links_witness :
    llist_add_added example_state example_list 3 = (example_state, some 3) ∧
    WellFormed example_state.mem example_list [1, 2] ∧ 3 ∉ [1, 2] ∧
    ∃ s' l', llist_add example_state (some example_list) llist_position.head none (some 3)
        = (s', some l') ∧
      l'.head = some 3 ∧ (s'.mem.nodes 3).next = some 1 ∧ (s'.mem.nodes 1).previous = some 3 := by
  have h1 : WellFormed example_state.mem example_list [1, 2] := by decide
  have h2 : 3 ∉ [1, 2] := by decide
  obtain ⟨s', l', heq, _, hh, hx, _⟩ :=
    llist_add_head_links example_state example_state example_list [1, 2] none 3 3 rfl h1 h2
  obtain ⟨h, hhd, hn, hp⟩ := hx (by decide)
  have : h = 1 := (Option.some.inj hhd).symm
  subst this
  exact ⟨rfl, h1, h2, s', l', heq, hh, hn, hp⟩

/-- A member of a duplicate-free list splits it, and erasing it joins the two parts. -/
theorem nodup_split_erase (xs : List Ptr) (x : Ptr) (hx : x ∈ xs) (hnd : xs.Nodup) :
    ∃ ys zs, xs = ys ++ x :: zs ∧ xs.erase x = ys ++ zs := by
  obtain ⟨ys, zs, rfl⟩ := List.mem_iff_append.1 hx
  have hxys : x ∉ ys := fun e => (List.nodup_append.1 hnd).2.2 e (List.mem_cons_self x zs)
  exact ⟨ys, zs, rfl, by rw [List.erase_append_right _ hxys, List.erase_cons_head]⟩

/-- C6: on a well-formed list with node sequence `xs`, `llist_remove(ll, x)` for a member `x`
returns (on fuel for one walk of the list) a well-formed list whose head-to-tail order is
`xs` with exactly `x` deleted; the former neighbours of `x` are linked to each other in both
directions, head is the old successor of `x` if `x` was the head, tail is the old
predecessor of `x` if `x` was the tail, and both are `NULL` when `x` was the only node. A
bound free hook is taken to leave every node other than the one it is given as it is. -/
theorem llist_remove_member (s : State) (l : llist) (xs : List Ptr) (x : Ptr) (fuel : Nat)
    (hwf : WellFormed s.mem l xs) (hx : x ∈ xs) (hfuel : xs.length ≤ fuel)
    (hfree : ∀ f, l.free_node = some f → ∀ m q, q ≠ x → (f m x).nodes q = m.nodes q) :
    ∃ s' l', llist_remove fuel s (some l) (some x) = some (s', some l') ∧
      WellFormed s'.mem l' (xs.erase x) ∧
      (∀ k, xs.length ≤ k → walk_next s'.mem k l'.head = some (xs.erase x)) ∧
      (∀ p, (s.mem.nodes x).previous = some p →
        (s'.mem.nodes p).next = (s.mem.nodes x).next) ∧
      (∀ nx, (s.mem.nodes x).next = some nx →
        (s'.mem.nodes nx).previous = (s.mem.nodes x).previous) ∧
      (l.head = some x → l'.head = (s.mem.nodes x).next) ∧
      (l.tail = some x → l'.tail = (s.mem.nodes x).previous) ∧
      (xs = [x] → l'.head = none ∧ l'.tail = none) := by
  obtain ⟨ys, zs, hxs, herase⟩ := nodup_split_erase xs x hx hwf.1
  subst hxs
  rw [herase]
  have hlt : ys.length < fuel := by simp at hfuel; omega
  obtain ⟨l', heq, hwf', hnx, hh, ht, _⟩ := remove_member_spliced s l ys zs x fuel hwf hlt
  have hxe : x ∉ ys ++ zs := by
    have hnd2 := List.nodup_append.1 hwf.1
    intro e
    rcases List.mem_append.1 e with e | e
    · exact hnd2.2.2 e (List.mem_cons_self x zs)
    · exact (List.nodup_cons.1 hnd2.2.1).1 e
  have hpx : (s.mem.nodes x).previous ≠ some x := by
    intro e
    obtain ⟨mid, midn, hys, hmidn, hprev, _⟩ := (seg_append _ ys (x :: zs) _ _ _ _).1 hwf.2
    by_cases hy : ys = []
    · subst hy; rw [← hprev, e] at hys; cases hys.2
    · obtain ⟨t, ht, htm⟩ := seg_last_mem _ _ _ _ _ _ hys hy
      rw [← hprev, e] at ht
      exact hxe (List.mem_append_left zs (Option.some.inj ht ▸ htm))
  -- the memory the call leaves agrees with the spliced one away from `x`
  have hframe : ∀ q, q ≠ x →
      ((match l.free_node with
        | some f => f (llist_remove_splice s.mem x) x
        | none => llist_remove_splice s.mem x).nodes q) =
      (llist_remove_splice s.mem x).nodes q := by
    intro q hq
    cases hf : l.free_node with
    | none => rfl
    | some f => exact hfree f hf _ q hq
  have hwf'' : WellFormed (match l.free_node with
        | some f => f (llist_remove_splice s.mem x) x
        | none => llist_remove_splice s.mem x) l' (ys ++ zs) := by
    refine ⟨hwf'.1, seg_congr _ _ _ _ _ _ _ ?_ hwf'.2⟩
    intro q hq
    have hqx : q ≠ x := fun e => hxe (e ▸ hq)
    rw [hframe q hqx]
    exact ⟨rfl, rfl⟩
  refine ⟨_, l', heq, hwf'', ?_, ?_, ?_, ?_, ?_, ?_⟩
  · intro k hk
    exact wf_walk_next _ _ _ hwf'' k (by simp at hk ⊢; omega)
  · intro p hp
    have hpx' : p ≠ x := fun e => hpx (e ▸ hp)
    show ((match l.free_node with
        | some f => f (llist_remove_splice s.mem x) x
        | none => llist_remove_splice s.mem x).nodes p).next = _
    rw [hframe p hpx', splice_next _ _ _ hnx, if_pos hp]
  · intro nx hn
    have hnx' : nx ≠ x := fun e => hnx (e ▸ hn)
    show ((match l.free_node with
        | some f => f (llist_remove_splice s.mem x) x
        | none => llist_remove_splice s.mem x).nodes nx).previous = _
    rw [hframe nx hnx', splice_previous _ _ _ hnx, if_pos hn]
  · intro e; rw [hh, if_pos e]
  · intro e; rw [ht, if_pos e]
  · intro e
    have hyz : ys ++ zs = [] := by
      have hlen := congrArg List.length e
      rw [List.length_append, List.length_cons, List.length_singleton] at hlen
      rw [List.eq_nil_of_length_eq_zero (show ys.length = 0 by omega),
        List.eq_nil_of_length_eq_zero (show zs.length = 0 by omega)]
      rfl
    rw [hyz] at hwf'
    exact ⟨hwf'.2.1, hwf'.2.2⟩

/-- Witness for C6: removing node `1` from the list `1, 2`, a free hook being bound. -/
theorem llist_remove_member_witness :
    WellFormed example_state.mem example_list_free [1, 2] ∧ 1 ∈ [1, 2] ∧
    (∀ f, example_list_free.free_node = some f →
      ∀ m q, q ≠ 1 → (f m 1).nodes q = m.nodes q) ∧
    ∃ s' l', llist_remove 2 example_state (some example_list_free) (some 1)
        = some (s', some l') ∧
      WellFormed s'.mem l' [2] ∧ l'.head = some 2 ∧ (s'.mem.nodes 2).previous = none := by
  have h1 : WellFormed example_state.mem example_list_free [1, 2] := by decide
  have h2 : 1 ∈ [1, 2] := by decide
  have h3 : ∀ f, example_list_free.free_node = some f →
      ∀ m q, q ≠ 1 → (f m 1).nodes q = m.nodes q := by
    intro f hf m q hq
    have hfe : f = example_free_node := (Option.some.inj hf).symm
    subst hfe
    simp [example_free_node, hq]
  obtain ⟨s', l', heq, hwf, _, _, hback, hh, _⟩ :=
    llist_remove_member example_state example_list_free [1, 2] 1 2 h1 h2 (by decide) h3
  exact ⟨h1, h2, h3, s', l', heq, hwf, hh rfl, hback 2 rfl⟩

/-- C7: on a well-formed list, after `llist_remove(ll, x)` for a member `x`: if the cursor
referenced `x`, the cursor equals the new head, which is the first node of what remains
(`NULL` if the list became empty); otherwise the cursor is unchanged. -/
theorem llist_remove_cursor (s : State) (l : llist) (xs : List Ptr) (x : Ptr) (fuel : Nat)
    (hwf : WellFormed s.mem l xs) (hx : x ∈ xs) (hfuel : xs.length ≤ fuel) :
    ∃ s' l', llist_remove fuel s (some l) (some x) = some (s', some l') ∧
      l'.head = (xs.erase x).head? ∧
      (l.current = some x → l'.current = l'.head) ∧
      (l.current = some x → xs = [x] → l'.current = none) ∧
      (l.current ≠ some x → l'.current = l.current) := by
  obtain ⟨ys, zs, hxs, herase⟩ := nodup_split_erase xs x hx hwf.1
  subst hxs
  rw [herase]
  have hlt : ys.length < fuel := by simp at hfuel; omega
  obtain ⟨l', heq, hwf', _, _, _, hc⟩ := remove_member_spliced s l ys zs x fuel hwf hlt
  have hhd := wf_head_eq _ _ _ hwf'
  refine ⟨_, l', heq, hhd, ?_, ?_, ?_⟩
  · intro e; rw [hc, if_pos e]
  · intro e hone
    have hyz : ys ++ zs = [] := by
      have hlen := congrArg List.length hone
      rw [List.length_append, List.length_cons, List.length_singleton] at hlen
      rw [List.eq_nil_of_length_eq_zero (show ys.length = 0 by omega),
        List.eq_nil_of_length_eq_zero (show zs.length = 0 by omega)]
      rfl
    rw [hc, if_pos e, hhd, hyz]; rfl
  · intro e; rw [hc, if_neg e]

/-- Witness for C7: removing node `2`, on which the cursor stands, from the list `1, 2`. -/
theorem llist_remove_cursor_witness :
    WellFormed example_state.mem example_list [1, 2] ∧ 2 ∈ [1, 2] ∧
    example_list.current = some 2 ∧
    ∃ s' l', llist_remove 2 example_state (some example_list) (some 2) = some (s', some l') ∧
      l'.current = some 1 := by
  have h1 : WellFormed example_state.mem example_list [1, 2] := by decide
  have h2 : 2 ∈ [1, 2] := by decide
  obtain ⟨s', l', heq, hh, hc, _⟩ :=
    llist_remove_cursor example_state example_list [1, 2] 2 2 h1 h2 (by decide)
  exact ⟨h1, h2, rfl, s', l', heq, by rw [hc rfl, hh]; decide⟩


/-- Inserting after the reference `r`, stated for the node `a` that is linked: the forward
links and `a->previous` are set, the tail moves when `r` was the tail, and no `previous`
link other than that of `a` is written: the old successor of `r` keeps `previous == r`. -/
theorem add_after_linked (s s1 : State) (l : llist) (w : Option Ptr) (n a r : Ptr)
    (hadd : llist_add_added s l n = (s1, some a))
    (hr : llist_add_where w l.current l.tail = some r) (har : a ≠ r)
    (hhead : l.head ≠ none) (htail : l.tail ≠ none) :
    ∃ s' l', llist_add s (some l) llist_position.after w (some n) = (s', some l') ∧
      (s'.mem.nodes r).next = some a ∧ (s'.mem.nodes a).previous = some r ∧
      (s'.mem.nodes a).next = (s1.mem.nodes r).next ∧
      (∀ q, q ≠ a → (s'.mem.nodes q).previous = (s1.mem.nodes q).previous) ∧
      (∀ q, q ≠ a → q ≠ r → (s'.mem.nodes q).next = (s1.mem.nodes q).next) ∧
      l'.head = l.head ∧ l'.tail = (if l.tail = some r then some a else l.tail) ∧
      l'.current = some a := by
  have hra : r ≠ a := fun e => har e.symm
  by_cases ht : l.tail = some r
  · have hr' := hr
    rw [ht] at hr'
    refine ⟨_, _, by simp [llist_add, hadd, hr', hra, hhead, ht]; exact ⟨rfl, rfl⟩, ?_⟩
    simp [hra, har]
    refine ⟨?_, ?_, ?_⟩
    · intro q hq; simp [hq]
    · intro q hq hq2; simp [hq, hq2]
    · simp [ht]
  · refine ⟨_, _, by simp [llist_add, hadd, hr, hra, hhead, htail, ht]; exact ⟨rfl, rfl⟩, ?_⟩
    simp [hra, har, ht]
    refine ⟨?_, ?_⟩
    · intro q hq; simp [hq]
    · intro q hq hq2; simp [hq, hq2]

/-- Removing a node that is not in a well-formed list: the call returns, nothing is written
or freed, and the handle is unchanged except that a `NULL` cursor is set to the head. -/
theorem remove_absent (s : State) (l : llist) (xs : List Ptr) (x : Ptr) (fuel : Nat)
    (hwf : WellFormed s.mem l xs) (hx : x ∉ xs) (hfuel : xs.length ≤ fuel) :
    llist_remove fuel s (some l) (some x) =
      some (s, some (if l.current = none then { l with current := l.head } else l)) := by
  obtain ⟨k, rfl⟩ : ∃ k, fuel = k + xs.length := ⟨fuel - xs.length, by omega⟩
  have hloop := remove_loop_skip x s l xs _ _ _ _ k hwf.2 hx
  have hend : llist_remove_loop x k s l none = some (s, l, none) := by
    cases k <;> rfl
  simp [llist_remove, hloop, hend]

/-- The forward walk from a node that is its own successor never ends. -/
theorem walk_next_self_loop (m : Mem) (n : Ptr) (h : (m.nodes n).next = some n) :
    ∀ fuel, walk_next m fuel (some n) = none := by
  intro fuel
  induction fuel with
  | zero => rfl
  | succ k ih => simp [walk_next, h, ih]

/-- C1: the calls `llist_add(ll, Tail, NULL, 1)`, `llist_add(ll, Tail, NULL, 2)`,
`llist_add(ll, After, 1, 3)` on a freshly created list (fresh nodes, the reference a member):
the walk from head via `next` visits `1, 3, 2`, the walk from tail via `previous` visits
only `2, 1`; the two walks are not the reverse of each other. -/
theorem after_insert_walks_disagree :
    forward_walk 10 (run_calls 10
      [Call.add llist_position.tail none (some 1), Call.add llist_position.tail none (some 2),
        Call.add llist_position.after (some 1) (some 3)] (State.init, llist_new true))
      = some [1, 3, 2] ∧
    backward_walk 10 (run_calls 10
      [Call.add llist_position.tail none (some 1), Call.add llist_position.tail none (some 2),
        Call.add llist_position.after (some 1) (some 3)] (State.init, llist_new true))
      = some [2, 1] ∧
    backward_walk 10 (run_calls 10
      [Call.add llist_position.tail none (some 1), Call.add llist_position.tail none (some 2),
        Call.add llist_position.after (some 1) (some 3)] (State.init, llist_new true))
      ≠ (forward_walk 10 (run_calls 10
      [Call.add llist_position.tail none (some 1), Call.add llist_position.tail none (some 2),
        Call.add llist_position.after (some 1) (some 3)] (State.init, llist_new true))).map
        List.reverse := by
  decide

/-- C3: `llist_add(ll, After, 2, 4)` on the list `1, 2, 3`: `2->next == 4`, `4->previous == 2`
and `4->next == 3`, but the old successor `3` of the reference keeps `previous == 2`
instead of `4`. -/
theorem after_insert_successor_back_link :
    node_after (run_calls 10
      [Call.add llist_position.tail none (some 1), Call.add llist_position.tail none (some 2),
        Call.add llist_position.tail none (some 3),
        Call.add llist_position.after (some 2) (some 4)] (State.init, llist_new true)) 3
      = some { previous := some 2, next := none, payload := none } ∧
    node_after (run_calls 10
      [Call.add llist_position.tail none (some 1), Call.add llist_position.tail none (some 2),
        Call.add llist_position.tail none (some 3),
        Call.add llist_position.after (some 2) (some 4)] (State.init, llist_new true)) 4
      = some { previous := some 2, next := some 3, payload := none } ∧
    node_after (run_calls 10
      [Call.add llist_position.tail none (some 1), Call.add llist_position.tail none (some 2),
        Call.add llist_position.tail none (some 3),
        Call.add llist_position.after (some 2) (some 4)] (State.init, llist_new true)) 2
      = some { previous := some 1, next := some 4, payload := none } := by
  decide

/-- C8: on the one-node list `1` whose cursor was moved past the end by `llist_next` (cursor
`NULL`), `llist_remove(ll, 2)` for the non-member `2` sets the cursor to the head `1`. -/
theorem remove_absent_moves_null_cursor :
    (handle_after (run_calls 10
      [Call.add llist_position.tail none (some 1), Call.next]
      (State.init, llist_new true))).bind llist.current = none ∧
    (handle_after (run_calls 10
      [Call.add llist_position.tail none (some 1), Call.next, Call.remove (some 2)]
      (State.init, llist_new true))).bind llist.current = some 1 := by
  decide

/-- C9, as stated, fails: on a freshly created (empty) list `llist_add(ll, Before, NULL, 1)`
and `llist_add(ll, After, NULL, 1)` do not leave the head `NULL`. -/
theorem add_before_after_empty_not_noop :
    ¬ ((handle_after (run_calls 10 [Call.add llist_position.before none (some 1)]
        (State.init, llist_new true))).bind llist.head = none) ∧
    ¬ ((handle_after (run_calls 10 [Call.add llist_position.after none (some 1)]
        (State.init, llist_new true))).bind llist.head = none) := by
  decide

/-- C9, amended: on an empty list (head, tail and cursor `NULL`) `llist_add(ll, Before, NULL,
n)` and `llist_add(ll, After, NULL, n)` skip the splice but the fallback after the `switch`
links the node `a` (`n` itself when no duplicate hook is bound, else the duplicate the hook
returned) as the only node: head, tail and cursor are `a`, and `a->previous` and `a->next`
are `NULL`. -/
theorem llist_add_before_after_empty (s s1 : State) (l : llist) (position : llist_position)
    (n a : Ptr)
    (hadd : llist_add_added s l n = (s1, some a))
    (hh : l.head = none) (ht : l.tail = none) (hc : l.current = none)
    (hp : position = llist_position.before ∨ position = llist_position.after) :
    ∃ s' l', llist_add s (some l) position none (some n) = (s', some l') ∧
      (l.dup_node = none → a = n) ∧
      l'.head = some a ∧ l'.tail = some a ∧ l'.current = some a ∧
      (s'.mem.nodes a).previous = none ∧ (s'.mem.nodes a).next = none ∧
      WellFormed s'.mem l' [a] := by
  have hdup : l.dup_node = none → a = n := by
    intro hd
    rw [llist_add_added_of_no_dup s l n hd] at hadd
    exact (Option.some.inj (Prod.mk.inj hadd).2).symm
  rcases hp with rfl | rfl
  · refine ⟨_, _, by simp [llist_add, hadd, llist_add_where, hh, ht, hc]; exact ⟨rfl, rfl⟩, hdup, ?_⟩
    simp [WellFormed, Seg]
  · refine ⟨_, _, by simp [llist_add, hadd, llist_add_where, hh, ht, hc]; exact ⟨rfl, rfl⟩, hdup, ?_⟩
    simp [WellFormed, Seg]

/-- Witness for C9, amended: `Before` with no reference on the zeroed handle. -/
theorem llist_add_before_after_empty_witness :
    llist_add_added State.init llist.zero 1 = (State.init, some 1) ∧
    ∃ s' l', llist_add State.init (some llist.zero) llist_position.before none (some 1)
        = (s', some l') ∧
      l'.head = some 1 ∧ l'.tail = some 1 ∧ l'.current = some 1 := by
  obtain ⟨s', l', heq, _, h1, h2, h3, _⟩ :=
    llist_add_before_after_empty State.init State.init llist.zero llist_position.before 1 1
      rfl rfl rfl rfl (Or.inl rfl)
  exact ⟨rfl, s', l', heq, h1, h2, h3⟩

/-- C10, as stated, fails: after `llist_add(ll, Tail, NULL, 1)` twice on a freshly created
list the first entry (the head, node `1`) does not have `previous == NULL`, and the
head-to-tail walk does not report two entries (it has not ended after 100 steps). -/
theorem add_same_node_twice_not_chain :
    (handle_after (run_calls 10
      [Call.add llist_position.tail none (some 1), Call.add llist_position.tail none (some 1)]
      (State.init, llist_new true))).bind llist.head = some 1 ∧
    ¬ ((node_after (run_calls 10
      [Call.add llist_position.tail none (some 1), Call.add llist_position.tail none (some 1)]
      (State.init, llist_new true)) 1).map llist_node.previous = some none) ∧
    forward_walk 100 (run_calls 10
      [Call.add llist_position.tail none (some 1), Call.add llist_position.tail none (some 1)]
      (State.init, llist_new true)) = none := by
  decide

/-- C10, amended: with no duplicate hook bound, `llist_add(ll, Tail, NULL, n)` twice with the
same node on an empty list leaves head, tail and cursor on `n`, and `n` linked to itself:
`n->next == n` and `n->previous == n`; the payload pointer of `n` is untouched, and a
head-to-tail walk never reaches the end. -/
theorem llist_add_tail_twice_self_loop (s : State) (l : llist) (n : Ptr)
    (hdup : l.dup_node = none) (hh : l.head = none) (ht : l.tail = none) :
    ∃ s' l',
      llist_add (llist_add s (some l) llist_position.tail none (some n)).1
        (llist_add s (some l) llist_position.tail none (some n)).2
        llist_position.tail none (some n) = (s', some l') ∧
      l'.head = some n ∧ l'.tail = some n ∧ l'.current = some n ∧
      (s'.mem.nodes n).next = some n ∧ (s'.mem.nodes n).previous = some n ∧
      (s'.mem.nodes n).payload = (s.mem.nodes n).payload ∧
      ∀ fuel, walk_next s'.mem fuel l'.head = none := by
  refine ⟨_, _, by simp [llist_add, llist_add_added, hdup, hh, ht]; exact ⟨rfl, rfl⟩, ?_⟩
  simp
  exact walk_next_self_loop _ n (by simp)

/-- Witness for C10, amended: node `1` twice on the zeroed handle. -/
theorem llist_add_tail_twice_self_loop_witness :
    llist.zero.dup_node = none ∧ llist.zero.head = none ∧ llist.zero.tail = none ∧
    ∃ s' l',
      llist_add (llist_add State.init (some llist.zero) llist_position.tail none (some 1)).1
        (llist_add State.init (some llist.zero) llist_position.tail none (some 1)).2
        llist_position.tail none (some 1) = (s', some l') ∧
      (s'.mem.nodes 1).next = some 1 ∧ (s'.mem.nodes 1).previous = some 1 := by
  obtain ⟨s', l', heq, _, _, _, h1, h2, _⟩ :=
    llist_add_tail_twice_self_loop State.init llist.zero 1 rfl rfl rfl
  exact ⟨rfl, rfl, rfl, s', l', heq, h1, h2⟩


/-- C11: whenever `llist_add` gets past the duplicate hook, at every position and whatever
reference is given, the cursor is left on the node `a` that is linked: `n` itself when no
duplicate hook is bound, the node the hook returned otherwise. At `Head` that node is the
new head and at `Tail` the new tail. -/
theorem llist_add_cursor (s s1 : State) (l : llist) (position : llist_position)
    (w : Option Ptr) (n a : Ptr)
    (hadd : llist_add_added s l n = (s1, some a)) :
    ∃ s' l', llist_add s (some l) position w (some n) = (s', some l') ∧
      l'.current = some a ∧
      (l.dup_node = none → a = n) ∧
      (∀ f, l.dup_node = some f → (f s.mem n).1 = some a) ∧
      (position = llist_position.head → l'.head = some a) ∧
      (position = llist_position.tail → l'.tail = some a) := by
  refine ⟨(llist_add s (some l) position w (some n)).1, ?_⟩
  have hdup : l.dup_node = none → a = n := by
    intro hd
    simp [llist_add_added, hd] at hadd
    exact hadd.2.symm
  have hhook : ∀ f, l.dup_node = some f → (f s.mem n).1 = some a := by
    intro f hf
    simp [llist_add_added, hf] at hadd
    exact hadd.2
  cases position with
  | tail =>
    by_cases hh : l.head = none <;>
      exact ⟨_, by simp [llist_add, hadd, hh]; rfl, by simp, hdup, hhook, by simp, by simp⟩
  | head =>
    by_cases ht : l.tail = none <;>
      exact ⟨_, by simp [llist_add, hadd, ht]; rfl, by simp, hdup, hhook, by simp, by simp⟩
  | before =>
    refine ⟨{ (match (llist_add s (some l) llist_position.before w (some n)).2 with
        | some l' => l'
        | none => l) with current := some a }, ?_, rfl, hdup, hhook, by simp, by simp⟩
    simp only [llist_add, hadd]
  | after =>
    refine ⟨{ (match (llist_add s (some l) llist_position.after w (some n)).2 with
        | some l' => l'
        | none => l) with current := some a }, ?_, rfl, hdup, hhook, by simp, by simp⟩
    simp only [llist_add, hadd]


/-- Witness for C11: `After` node `1` of the list `1, 2` with the duplicate hook
`example_dup_node` bound links the duplicate `3` and leaves the cursor on it. -/
theorem llist_add_cursor_witness :
    ∃ s' l', llist_add example_state_items (some example_list_dup) llist_position.after
        (some 1) (some 2) = (s', some l') ∧
      l'.current = some 3 ∧ (example_dup_node example_state_items.mem 2).1 = some 3 := by
  obtain ⟨s', l', heq, hc, _⟩ :=
    llist_add_cursor example_state_items
      { mem := (example_dup_node example_state_items.mem 2).2,
        trace := example_state_items.trace ++ [Event.dup_node 2] }
      example_list_dup llist_position.after (some 1) 2 3 rfl
  exact ⟨s', l', heq, hc, rfl⟩

/-- C12: the calls `llist_add(ll, Tail, NULL, 1)`, `llist_add(ll, Tail, NULL, 2)`,
`llist_add(ll, After, 1, 3)`, `llist_remove(ll, 1)`, `llist_tail(ll)`, `llist_previous(ll)`
on a freshly created list (fresh nodes, reference and removed node members): the list is
`3, 2`, and the cursor ends on the removed node `1`, which is not reachable from the head. -/
theorem cursor_on_removed_node :
    forward_walk 10 (run_calls 10
      [Call.add llist_position.tail none (some 1), Call.add llist_position.tail none (some 2),
        Call.add llist_position.after (some 1) (some 3), Call.remove (some 1), Call.tail,
        Call.previous] (State.init, llist_new true)) = some [3, 2] ∧
    (handle_after (run_calls 10
      [Call.add llist_position.tail none (some 1), Call.add llist_position.tail none (some 2),
        Call.add llist_position.after (some 1) (some 3), Call.remove (some 1), Call.tail,
        Call.previous] (State.init, llist_new true))).bind llist.current = some 1 ∧
    1 ∉ [3, 2] := by
  decide

/-- C18: `llist_dup` of the list `1, 2` with no duplicate hook bound returns a handle whose
head-to-tail walk is `1` alone, and the walk of the source list from its own head is cut
down to `1` as well: linking the shared node `1` into the new list zeroes its `next`. -/
theorem shallow_dup_keeps_first_node_only :
    WellFormed example_state.mem example_list [1, 2] ∧
    example_list.dup_node = none ∧
    forward_walk 10 (llist_dup true 10 example_state (some example_list)) = some [1] ∧
    ((llist_dup true 10 example_state (some example_list)).bind fun r =>
      walk_next r.1.mem 10 example_list.head) = some [1] :=
  ⟨by decide, rfl, by decide, by decide⟩

/-- C19: `llist_dup` of the two-node list `1, 2` with the duplicate hook `example_dup_node`
bound calls the hook four times, on `1`, on its duplicate `3`, on `2` and on its duplicate
`5`; the returned list is `4, 6`, the duplicates of the duplicates, not the nodes `3, 5` the
hook produced for the source nodes. -/
theorem deep_dup_duplicates_twice :
    WellFormed example_state_items.mem example_list_dup [1, 2] ∧
    ((llist_dup true 10 example_state_items (some example_list_dup)).map fun r => r.1.trace)
      = some [Event.dup_node 1, Event.dup_node 3, Event.dup_node 2, Event.dup_node 5] ∧
    forward_walk 10 (llist_dup true 10 example_state_items (some example_list_dup))
      = some [4, 6] ∧
    (example_dup_node example_mem_items 1).1 = some 3 := by
  decide

/-- With the cursor `NULL`, `llist_previous` returns `NULL` and leaves the handle as it is. -/
theorem llist_previous_null (m : Mem) (l : llist) (h : l.current = none) :
    llist_previous m (some l) = (some l, none) := by
  simp [llist_previous, h]

/-- With the cursor `NULL`, `llist_next` returns `NULL` and leaves the handle as it is. -/
theorem llist_next_null (m : Mem) (l : llist) (h : l.current = none) :
    llist_next m (some l) = (some l, none) := by
  simp [llist_next, h]

/-- Repeated `llist_previous` on a `NULL` cursor changes nothing. -/
theorem repeat_previous_null (m : Mem) (l : llist) (h : l.current = none) :
    ∀ j, repeat_previous m j (some l) = some l := by
  intro j
  induction j with
  | zero => rfl
  | succ k ih => simp [repeat_previous, llist_previous_null m l h, ih]

/-- Repeated `llist_next` on a `NULL` cursor changes nothing. -/
theorem repeat_next_null (m : Mem) (l : llist) (h : l.current = none) :
    ∀ j, repeat_next m j (some l) = some l := by
  intro j
  induction j with
  | zero => rfl
  | succ k ih => simp [repeat_next, llist_next_null m l h, ih]

/-- Calls made one after the other add up. -/
theorem repeat_previous_add (m : Mem) (a b : Nat) :
    ∀ ll, repeat_previous m (a + b) ll = repeat_previous m b (repeat_previous m a ll) := by
  induction a with
  | zero => intro ll; simp [repeat_previous]
  | succ k ih =>
    intro ll
    have : k + 1 + b = (k + b) + 1 := by omega
    rw [this]
    simp only [repeat_previous]
    exact ih _

/-- Calls made one after the other add up. -/
theorem repeat_next_add (m : Mem) (a b : Nat) :
    ∀ ll, repeat_next m (a + b) ll = repeat_next m b (repeat_next m a ll) := by
  induction a with
  | zero => intro ll; simp [repeat_next]
  | succ k ih =>
    intro ll
    have : k + 1 + b = (k + b) + 1 := by omega
    rw [this]
    simp only [repeat_next]
    exact ih _

/-- From a node with `ys` in front of it, `ys.length + 1` calls of `llist_previous` take the
cursor off the list. -/
theorem repeat_previous_off (m : Mem) (ys : List Ptr) :
    ∀ (c : Ptr) (zs : List Ptr) (p last nxt : Option Ptr) (l : llist),
      Seg m none p (ys ++ c :: zs) last nxt → l.current = some c →
      repeat_previous m (ys.length + 1) (some l) = some { l with current := none } := by
  induction ys using List.reverseRecOn with
  | nil =>
    intro c zs p last nxt l h hc
    obtain ⟨_, hprev, _⟩ := h
    simp [repeat_previous, llist_previous, hc, hprev]
  | append_singleton ys d ih =>
    intro c zs p last nxt l h hc
    obtain ⟨mid, midn, h1, _, hprev, _⟩ := (seg_append _ (ys ++ [d]) (c :: zs) _ _ _ _).1 h
    obtain ⟨_, _, _, _, hmid⟩ := (seg_snoc _ _ _ _ _ _ _).1 h1
    rw [hmid] at hprev
    have h' : Seg m none p (ys ++ d :: (c :: zs)) last nxt := by
      simpa using h
    have := ih d (c :: zs) p last nxt { l with current := some d } h' rfl
    rw [List.length_append, List.length_singleton]
    simp only [repeat_previous, llist_previous, hc, hprev]
    exact this

/-- From a node with `zs` behind it, `zs.length + 1` calls of `llist_next` take the cursor
off the list. -/
theorem repeat_next_off (m : Mem) (zs : List Ptr) :
    ∀ (c : Ptr) (ys : List Ptr) (prev p last : Option Ptr) (l : llist),
      Seg m prev p (ys ++ c :: zs) last none → l.current = some c →
      repeat_next m (zs.length + 1) (some l) = some { l with current := none } := by
  induction zs with
  | nil =>
    intro c ys prev p last l h hc
    obtain ⟨_, _, _, _, _, hnext, _⟩ := (seg_append _ ys [c] _ _ _ _).1 h
    simp [repeat_next, llist_next, hc, hnext]
  | cons d zs ih =>
    intro c ys prev p last l h hc
    obtain ⟨_, _, _, _, _, hnext, _⟩ := (seg_append _ ys (c :: d :: zs) _ _ _ _).1 h
    have h' : Seg m prev p ((ys ++ [c]) ++ d :: zs) last none := by
      simpa using h
    have := ih d (ys ++ [c]) prev p last { l with current := some d } h' rfl
    simp only [List.length_cons, repeat_next, llist_next, hc, hnext]
    exact this

/-- C13: on a well-formed list with `k` nodes whose cursor is `NULL` or on a node of the
list, after some `j ≤ k` consecutive `llist_previous` calls (respectively `llist_next`
calls) the cursor is `NULL`, and it stays `NULL` under every further such call, each of
which returns `NULL`; every call returns the cursor it leaves, so the call that took the
cursor off the list returned `NULL`. With the cursor `NULL`, `llist_previous` and
`llist_next` return `NULL` and change nothing, while `llist_head` and `llist_tail` set the
cursor to the head and the tail and return it. -/
theorem cursor_runs_off_and_stays (m : Mem) (l : llist) (xs : List Ptr)
    (hwf : WellFormed m l xs) (hc : ∀ c, l.current = some c → c ∈ xs) :
    (∃ j, j ≤ xs.length ∧ ∀ i, j ≤ i →
      llist_current (repeat_previous m i (some l)) = none ∧
      (llist_previous m (repeat_previous m i (some l))).2 = none) ∧
    (∃ j, j ≤ xs.length ∧ ∀ i, j ≤ i →
      llist_current (repeat_next m i (some l)) = none ∧
      (llist_next m (repeat_next m i (some l))).2 = none) ∧
    (∀ ll, (llist_previous m ll).2 = llist_current (llist_previous m ll).1) ∧
    (∀ ll, (llist_next m ll).2 = llist_current (llist_next m ll).1) ∧
    (∀ l0 : llist, l0.current = none →
      llist_previous m (some l0) = (some l0, none) ∧ llist_next m (some l0) = (some l0, none) ∧
      llist_head (some l0) = (some { l0 with current := l0.head }, l0.head) ∧
      llist_tail (some l0) = (some { l0 with current := l0.tail }, l0.tail)) := by
  refine ⟨?_, ?_, ?_, ?_, ?_⟩
  · cases hcur : l.current with
    | none =>
      refine ⟨0, Nat.zero_le _, fun i _ => ?_⟩
      rw [repeat_previous_null m l hcur i]
      simp [llist_current, llist_previous, hcur]
    | some c =>
      obtain ⟨ys, zs, rfl⟩ := List.mem_iff_append.1 (hc c hcur)
      refine ⟨ys.length + 1, by simp, fun i hi => ?_⟩
      obtain ⟨d, rfl⟩ : ∃ d, i = (ys.length + 1) + d := ⟨i - (ys.length + 1), by omega⟩
      rw [repeat_previous_add, repeat_previous_off m ys c zs _ _ _ l hwf.2 hcur,
        repeat_previous_null m _ rfl d]
      simp [llist_current, llist_previous]
  · cases hcur : l.current with
    | none =>
      refine ⟨0, Nat.zero_le _, fun i _ => ?_⟩
      rw [repeat_next_null m l hcur i]
      simp [llist_current, llist_next, hcur]
    | some c =>
      obtain ⟨ys, zs, rfl⟩ := List.mem_iff_append.1 (hc c hcur)
      refine ⟨zs.length + 1, by simp, fun i hi => ?_⟩
      obtain ⟨d, rfl⟩ : ∃ d, i = (zs.length + 1) + d := ⟨i - (zs.length + 1), by omega⟩
      rw [repeat_next_add, repeat_next_off m zs c ys _ _ _ l hwf.2 hcur,
        repeat_next_null m _ rfl d]
      simp [llist_current, llist_next]
  · intro ll
    cases ll with
    | none => rfl
    | some l0 => cases h : l0.current <;> simp [llist_previous, llist_current, h]
  · intro ll
    cases ll with
    | none => rfl
    | some l0 => cases h : l0.current <;> simp [llist_next, llist_current, h]
  · intro l0 h0
    exact ⟨llist_previous_null m l0 h0, llist_next_null m l0 h0, rfl, rfl⟩

/-- Witness for C13: on the list `1, 2` with the cursor on `2`, two calls of
`llist_previous` and one call of `llist_next` take the cursor off the list. -/
theorem cursor_runs_off_and_stays_witness :
    WellFormed example_state.mem example_list [1, 2] ∧
    (∃ j, j ≤ 2 ∧ ∀ i, j ≤ i →
      llist_current (repeat_previous example_state.mem i (some example_list)) = none) ∧
    llist_current (repeat_previous example_state.mem 1 (some example_list)) = some 1 ∧
    llist_current (repeat_previous example_state.mem 2 (some example_list)) = none ∧
    llist_current (repeat_next example_state.mem 1 (some example_list)) = none := by
  have h1 : WellFormed example_state.mem example_list [1, 2] := by decide
  obtain ⟨⟨j, hj, hprev⟩, _⟩ :=
    cursor_runs_off_and_stays example_state.mem example_list [1, 2] h1
      (by intro c hcur; have : c = 2 := (Option.some.inj hcur).symm; subst this; decide)
  exact ⟨h1, ⟨j, hj, fun i hi => (hprev i hi).1⟩, by decide, by decide, by decide⟩

/-- The search loop of `llist_find` over a segment that ends in `NULL`: it returns the first
node the compare hook reports equal to the needle, and only the trace changes. -/
theorem find_loop_spec (cmp : Mem → Ptr → Ptr → Int) (nd : Ptr) (xs : List Ptr) :
    ∀ (s : State) (prev p last : Option Ptr) (fuel : Nat), xs.length ≤ fuel →
      Seg s.mem prev p xs last none →
      ∃ s', llist_find_loop cmp nd fuel s p =
          some (s', xs.find? (fun c => decide (cmp s.mem c nd = 0))) ∧ s'.mem = s.mem := by
  induction xs with
  | nil =>
    intro s prev p last fuel _ h
    obtain ⟨hp, _⟩ := h
    subst hp
    exact ⟨s, by cases fuel <;> rfl, rfl⟩
  | cons x xs ih =>
    intro s prev p last fuel hf h
    obtain ⟨hp, _, hrest⟩ := h
    subst hp
    cases fuel with
    | zero => simp at hf
    | succ k =>
      have hk : xs.length ≤ k := by simpa using hf
      by_cases hx : cmp s.mem x nd = 0
      · exact ⟨{ s with trace := s.trace ++ [Event.cmp_node x nd] },
          by simp [llist_find_loop, hx], rfl⟩
      · obtain ⟨s', heq, hmem⟩ :=
          ih { s with trace := s.trace ++ [Event.cmp_node x nd] } _ _ _ k hk hrest
        exact ⟨s', by simp [llist_find_loop, hx, heq], hmem⟩

/-- C14: on a well-formed list with node sequence `xs` and a non-null needle, `llist_find`
returns `NULL` when no compare hook is bound; with the hook `cmp` bound it returns (on fuel
for one walk) the first node `c` in head-to-tail order with `cmp(c, needle) == 0`, the node of
the list itself, and `NULL` exactly when no node of the list compares equal. -/
theorem llist_find_first_match (s : State) (l : llist) (xs : List Ptr) (nd : Ptr) (fuel : Nat)
    (hwf : WellFormed s.mem l xs) (hfuel : xs.length ≤ fuel) :
    (l.cmp_node = none → llist_find fuel s (some l) (some nd) = some (s, none)) ∧
    (∀ cmp, l.cmp_node = some cmp →
      ∃ s' r, llist_find fuel s (some l) (some nd) = some (s', r) ∧ s'.mem = s.mem ∧
        r = xs.find? (fun c => decide (cmp s.mem c nd = 0)) ∧
        (∀ c, r = some c → cmp s.mem c nd = 0 ∧
          ∃ ys zs, xs = ys ++ c :: zs ∧ ∀ y ∈ ys, cmp s.mem y nd ≠ 0) ∧
        (r = none ↔ ∀ c ∈ xs, cmp s.mem c nd ≠ 0)) := by
  constructor
  · intro h
    simp [llist_find, h]
  · intro cmp h
    obtain ⟨s', heq, hmem⟩ := find_loop_spec cmp nd xs s _ _ _ fuel hfuel hwf.2
    refine ⟨s', _, by simp [llist_find, h, heq], hmem, rfl, ?_, ?_⟩
    · intro c hc
      obtain ⟨h1, ys, zs, h2, h3⟩ := List.find?_eq_some.1 hc
      exact ⟨by simpa using h1, ys, zs, h2, fun y hy => by simpa using h3 y hy⟩
    · simp

/-- Witness for C14: on the list `1, 2` of `example_mem_items` (ids `10` and `20`) with
`cmp_node` bound, a needle that is node `2` itself finds node `2`. -/
theorem llist_find_first_match_witness :
    WellFormed example_state_items.mem example_list_cmp [1, 2] ∧
    ∃ s', llist_find 2 example_state_items (some example_list_cmp) (some 2) = some (s', some 2) := by
  have h1 : WellFormed example_state_items.mem example_list_cmp [1, 2] := by decide
  obtain ⟨_, h⟩ :=
    llist_find_first_match example_state_items example_list_cmp [1, 2] 2 2 h1 (by decide)
  obtain ⟨s', r, heq, _, hr, _⟩ := h cmp_node rfl
  have hr2 : r = some 2 := by rw [hr]; decide
  subst hr2
  exact ⟨h1, s', heq⟩

/-- The search loop of `llist_find_payload` over a segment that ends in `NULL`. -/
theorem find_payload_loop_spec (m : Mem) (pl : Ptr) (xs : List Ptr) :
    ∀ (prev p last : Option Ptr) (fuel : Nat), xs.length ≤ fuel →
      Seg m prev p xs last none →
      llist_find_payload_loop m pl fuel p =
        some (xs.find? (fun c => decide ((m.nodes c).payload = some pl))) := by
  induction xs with
  | nil =>
    intro prev p last fuel _ h
    obtain ⟨hp, _⟩ := h
    subst hp
    cases fuel <;> rfl
  | cons x xs ih =>
    intro prev p last fuel hf h
    obtain ⟨hp, _, hrest⟩ := h
    subst hp
    cases fuel with
    | zero => simp at hf
    | succ k =>
      have hk : xs.length ≤ k := by simpa using hf
      by_cases hx : (m.nodes x).payload = some pl
      · simp [llist_find_payload_loop, hx]
      · simp [llist_find_payload_loop, hx, ih _ _ _ k hk hrest]

/-- C16: on a well-formed list with node sequence `xs` and a non-null payload pointer `pl`,
`llist_find_payload` returns `NULL` whenever no compare hook is bound, even if a node
carries `pl`; with a compare hook bound it returns (on fuel for one walk) the first node in
head-to-tail order whose payload pointer is `pl`, or `NULL` if there is none, and the state
is returned as it was: nothing is written and no hook is called. -/
theorem llist_find_payload_first (s : State) (l : llist) (xs : List Ptr) (pl : Ptr)
    (fuel : Nat) (hwf : WellFormed s.mem l xs) (hfuel : xs.length ≤ fuel) :
    (l.cmp_node = none → llist_find_payload fuel s (some l) (some pl) = some (s, none)) ∧
    (l.cmp_node ≠ none →
      ∃ r, llist_find_payload fuel s (some l) (some pl) = some (s, r) ∧
        r = xs.find? (fun c => decide ((s.mem.nodes c).payload = some pl)) ∧
        (∀ c, r = some c → (s.mem.nodes c).payload = some pl ∧
          ∃ ys zs, xs = ys ++ c :: zs ∧ ∀ y ∈ ys, (s.mem.nodes y).payload ≠ some pl) ∧
        (r = none ↔ ∀ c ∈ xs, (s.mem.nodes c).payload ≠ some pl)) := by
  constructor
  · intro h
    simp [llist_find_payload, h]
  · intro h
    obtain ⟨cmp, hcmp⟩ := Option.ne_none_iff_exists'.1 h
    have heq := find_payload_loop_spec s.mem pl xs _ _ _ fuel hfuel hwf.2
    refine ⟨_, by simp [llist_find_payload, hcmp, heq], rfl, ?_, ?_⟩
    · intro c hc
      obtain ⟨h1, ys, zs, h2, h3⟩ := List.find?_eq_some.1 hc
      exact ⟨by simpa using h1, ys, zs, h2, fun y hy => by simpa using h3 y hy⟩
    · simp

/-- Witness for C16: on the list `1, 2` of `example_mem_items`, node `2` carries the payload
pointer `2`: with `cmp_node` bound it is found, with no compare hook bound it is not. -/
theorem llist_find_payload_first_witness :
    WellFormed example_state_items.mem example_list_cmp [1, 2] ∧
    WellFormed example_state_items.mem example_list [1, 2] ∧
    llist_find_payload 2 example_state_items (some example_list_cmp) (some 2)
      = some (example_state_items, some 2) ∧
    llist_find_payload 2 example_state_items (some example_list) (some 2)
      = some (example_state_items, none) := by
  have h1 : WellFormed example_state_items.mem example_list_cmp [1, 2] := by decide
  have h2 : WellFormed example_state_items.mem example_list [1, 2] := by decide
  obtain ⟨_, h⟩ :=
    llist_find_payload_first example_state_items example_list_cmp [1, 2] 2 2 h1 (by decide)
  obtain ⟨r, heq, hr, _⟩ := h (by simp [example_list_cmp])
  have hr2 : r = some 2 := by rw [hr]; decide
  subst hr2
  exact ⟨h1, h2, heq,
    (llist_find_payload_first example_state_items example_list [1, 2] 2 2 h2 (by decide)).1 rfl⟩

/-- Two nodes with the same three fields are the same record. -/
theorem node_eq_of_fields (a b : llist_node) (h1 : a.previous = b.previous)
    (h2 : a.next = b.next) (h3 : a.payload = b.payload) : a = b := by
  cases a; cases b; simp_all

/-- In a well-formed list the `next` of a member is a member. -/
theorem wf_next_mem (m : Mem) (l : llist) (xs : List Ptr) (hwf : WellFormed m l xs)
    (x q : Ptr) (hx : x ∈ xs) (hq : (m.nodes x).next = some q) : q ∈ xs := by
  obtain ⟨ys, zs, rfl⟩ := List.mem_iff_append.1 hx
  obtain ⟨_, _, _, _, _, hzs⟩ := (seg_append _ ys (x :: zs) _ _ _ _).1 hwf.2
  by_cases hz : zs = []
  · subst hz; rw [hzs.1] at hq; cases hq
  · obtain ⟨t, ht, htm⟩ := seg_first_mem _ _ _ _ _ _ hzs hz
    rw [ht] at hq
    exact List.mem_append_right ys (List.mem_cons_of_mem x (Option.some.inj hq ▸ htm))

/-- In a well-formed list the `previous` of a member is a member. -/
theorem wf_previous_mem (m : Mem) (l : llist) (xs : List Ptr) (hwf : WellFormed m l xs)
    (x q : Ptr) (hx : x ∈ xs) (hq : (m.nodes x).previous = some q) : q ∈ xs := by
  obtain ⟨ys, zs, rfl⟩ := List.mem_iff_append.1 hx
  obtain ⟨mid, _, hys, _, hprev, _⟩ := (seg_append _ ys (x :: zs) _ _ _ _).1 hwf.2
  by_cases hy : ys = []
  · subst hy; rw [hys.2] at hprev; rw [hprev] at hq; cases hq
  · obtain ⟨t, ht, htm⟩ := seg_last_mem _ _ _ _ _ _ hys hy
    rw [hprev, ht] at hq
    exact List.mem_append_left _ (Option.some.inj hq ▸ htm)

/-- The splice writes of `llist_remove` on a member of a well-formed list leave every node
outside the list as it is. -/
theorem splice_frame (m : Mem) (l : llist) (xs : List Ptr) (hwf : WellFormed m l xs)
    (x q : Ptr) (hx : x ∈ xs) (hq : q ∉ xs) :
    (llist_remove_splice m x).nodes q = m.nodes q := by
  have hnx : (m.nodes x).next ≠ some x := by
    intro e
    obtain ⟨ys, zs, rfl⟩ := List.mem_iff_append.1 hx
    obtain ⟨_, _, _, _, _, hzs⟩ := (seg_append _ ys (x :: zs) _ _ _ _).1 hwf.2
    have hxzs : x ∉ zs := (List.nodup_cons.1 (List.nodup_append.1 hwf.1).2.1).1
    by_cases hz : zs = []
    · subst hz; rw [hzs.1] at e; cases e
    · obtain ⟨t, ht, htm⟩ := seg_first_mem _ _ _ _ _ _ hzs hz
      rw [ht] at e
      exact hxzs (Option.some.inj e ▸ htm)
  refine node_eq_of_fields _ _ ?_ ?_ (splice_payload m x q)
  · rw [splice_previous _ _ _ hnx, if_neg]
    intro e; exact hq (wf_next_mem m l xs hwf x q hx e)
  · rw [splice_next _ _ _ hnx, if_neg]
    intro e; exact hq (wf_previous_mem m l xs hwf x q hx e)

/-- The loop of `llist_remove` leaves the four hook bindings as they are. -/
theorem remove_loop_hooks (node : Ptr) :
    ∀ (fuel : Nat) (s : State) (l : llist) (p : Option Ptr) (s1 : State) (l1 : llist)
      (loc : Option Ptr), llist_remove_loop node fuel s l p = some (s1, l1, loc) →
      l1.new_node = l.new_node ∧ l1.dup_node = l.dup_node ∧ l1.free_node = l.free_node ∧
        l1.cmp_node = l.cmp_node := by
  intro fuel
  induction fuel with
  | zero =>
    intro s l p s1 l1 loc h
    cases p with
    | none => simp [llist_remove_loop] at h; obtain ⟨_, h2, _⟩ := h; subst h2; simp
    | some q => simp [llist_remove_loop] at h
  | succ k ih =>
    intro s l p s1 l1 loc h
    cases p with
    | none => simp [llist_remove_loop] at h; obtain ⟨_, h2, _⟩ := h; subst h2; simp
    | some q =>
      by_cases hq : q = node
      · simp only [llist_remove_loop, if_pos hq] at h
        have h2 := (Prod.mk.inj (Prod.mk.inj (Option.some.inj h)).2).1
        rw [← h2]
        by_cases hh : l.head = some q <;> by_cases ht : l.tail = some q <;> simp [hh, ht]
      · simp only [llist_remove_loop, if_neg hq] at h
        exact ih _ _ _ _ _ _ h

/-- The function `llist_remove` leaves the four hook bindings as they are. -/
theorem llist_remove_hooks (fuel : Nat) (s s' : State) (l l' : llist) (node : Option Ptr)
    (h : llist_remove fuel s (some l) node = some (s', some l')) :
    l'.new_node = l.new_node ∧ l'.dup_node = l.dup_node ∧ l'.free_node = l.free_node ∧
      l'.cmp_node = l.cmp_node := by
  cases node with
  | none =>
    simp [llist_remove] at h
    rw [← h.2]; simp
  | some n =>
    simp only [llist_remove] at h
    cases hl : llist_remove_loop n fuel s l l.head with
    | none => rw [hl] at h; cases h
    | some r =>
      obtain ⟨s1, l1, loc⟩ := r
      rw [hl] at h
      have hk := remove_loop_hooks n fuel s l l.head s1 l1 loc hl
      have h2 := Option.some.inj (Prod.mk.inj (Option.some.inj h)).2
      rw [← h2]
      split <;> simpa using hk

/-- On two nodes that carry items, `cmp_node` returns `0` exactly when the ids agree. -/
theorem cmp_node_eq_zero_iff (m : Mem) (a b pa pb : Ptr) (ha : (m.nodes a).payload = some pa)
    (hb : (m.nodes b).payload = some pb) : cmp_node m a b = 0 ↔ m.user pa = m.user pb := by
  simp only [cmp_node, ha, hb]
  constructor
  · intro h
    by_cases h1 : m.user pa < m.user pb
    · simp [h1] at h
    · by_cases h2 : m.user pa > m.user pb
      · simp [h1, h2] at h
      · omega
  · intro h
    simp [h]

/-- Removing a member of a well-formed list with a free hook that writes to no other node:
the call returns a well-formed list without the node, with the same hooks, and the memory
is the spliced one after the free hook (or `free`). -/
theorem remove_member_full (s : State) (l : llist) (xs : List Ptr) (x : Ptr) (fuel : Nat)
    (hwf : WellFormed s.mem l xs) (hx : x ∈ xs) (hfuel : xs.length ≤ fuel)
    (hfree : ∀ f, l.free_node = some f → ∀ m q, q ≠ x → (f m x).nodes q = m.nodes q) :
    ∃ s' l', llist_remove fuel s (some l) (some x) = some (s', some l') ∧
      WellFormed s'.mem l' (xs.erase x) ∧
      s'.mem = (match l.free_node with
        | some f => f (llist_remove_splice s.mem x) x
        | none => llist_remove_splice s.mem x) ∧
      (∀ q, q ≠ x → (s'.mem.nodes q).payload = (s.mem.nodes q).payload) ∧
      (∀ q, q ∉ xs → s'.mem.nodes q = s.mem.nodes q) ∧
      l'.cmp_node = l.cmp_node ∧ l'.dup_node = l.dup_node ∧ l'.free_node = l.free_node ∧
      l'.new_node = l.new_node := by
  obtain ⟨ys, zs, hxs, herase⟩ := nodup_split_erase xs x hx hwf.1
  have hlt : ys.length < fuel := by subst hxs; simp at hfuel; omega
  have hwf0 := hwf
  rw [hxs] at hwf
  obtain ⟨l', heq, hwf', _, _, _, _⟩ := remove_member_spliced s l ys zs x fuel hwf hlt
  have hxe : x ∉ xs.erase x := fun e => (List.Nodup.mem_erase_iff hwf0.1).1 e |>.1 rfl
  have hframe : ∀ q, q ≠ x →
      ((match l.free_node with
        | some f => f (llist_remove_splice s.mem x) x
        | none => llist_remove_splice s.mem x).nodes q) =
      (llist_remove_splice s.mem x).nodes q := by
    intro q hq
    cases hf : l.free_node with
    | none => rfl
    | some f => exact hfree f hf _ q hq
  obtain ⟨h1, h2, h3, h4⟩ := llist_remove_hooks fuel s _ l l' (some x) heq
  refine ⟨_, l', heq, ?_, rfl, ?_, ?_, h4, h2, h3, h1⟩
  · rw [herase]
    refine ⟨hwf'.1, seg_congr _ _ _ _ _ _ _ ?_ hwf'.2⟩
    intro q hq
    have hqx : q ≠ x := by
      intro e; apply hxe; rw [herase, ← e]; exact hq
    exact ⟨congrArg llist_node.previous (hframe q hqx),
      congrArg llist_node.next (hframe q hqx)⟩
  · intro q hq
    show ((match l.free_node with
        | some f => f (llist_remove_splice s.mem x) x
        | none => llist_remove_splice s.mem x).nodes q).payload = _
    rw [hframe q hq, splice_payload]
  · intro q hq
    have hqx : q ≠ x := fun e => hq (e ▸ hx)
    show ((match l.free_node with
        | some f => f (llist_remove_splice s.mem x) x
        | none => llist_remove_splice s.mem x).nodes q) = _
    rw [hframe q hqx, splice_frame s.mem l xs hwf0 x q hx hq]

/-- The splice writes of `llist_remove` leave the caller-owned storage as it is. -/
theorem splice_user (m : Mem) (x : Ptr) : (llist_remove_splice m x).user = m.user := by
  unfold llist_remove_splice
  cases h1 : (m.nodes x).next <;> simp <;>
    split <;> simp

/-- C15: every list built by tail insertions is well-formed with its nodes in insertion
order (C2), so take a well-formed list of `N` nodes that carry items with pairwise distinct
ids, the three-way id comparison `cmp_node` bound as compare hook, a member `x` and a needle
outside the list whose own item has the id of `x`. Then `llist_find` returns `x`;
`llist_remove` of `x` returns; `llist_find` with the same needle then returns `NULL`; and
the head-to-tail walk lists the other nodes, `N - 1` of them. A bound free hook is taken to
write to no other node and to no item but the one of the node it is given. -/
theorem find_remove_find (s : State) (l : llist) (xs : List Ptr) (x nd : Ptr) (fuel : Nat)
    (hwf : WellFormed s.mem l xs) (hcmp : l.cmp_node = some cmp_node)
    (hitems : ∀ a ∈ xs, (s.mem.nodes a).payload ≠ none)
    (hids : ∀ a ∈ xs, ∀ b ∈ xs, item_id s.mem a = item_id s.mem b → a = b)
    (hx : x ∈ xs) (hnd : item_id s.mem nd = item_id s.mem x) (hndx : nd ∉ xs)
    (hpl : (s.mem.nodes nd).payload ≠ (s.mem.nodes x).payload)
    (hfree : ∀ f, l.free_node = some f → ∀ m,
      (∀ q, q ≠ x → (f m x).nodes q = m.nodes q) ∧
      (∀ y, (m.nodes x).payload ≠ some y → (f m x).user y = m.user y))
    (hfuel : xs.length ≤ fuel) :
    ∃ s1, llist_find fuel s (some l) (some nd) = some (s1, some x) ∧
      ∃ s2 l2, llist_remove fuel s1 (some l) (some x) = some (s2, some l2) ∧
        (∃ s3, llist_find fuel s2 (some l2) (some nd) = some (s3, none)) ∧
        walk_next s2.mem fuel l2.head = some (xs.erase x) ∧
        (xs.erase x).length = xs.length - 1 := by
  -- the items
  obtain ⟨px, hpx⟩ := Option.ne_none_iff_exists'.1 (hitems x hx)
  have hidx : item_id s.mem x = some (s.mem.user px) := by simp [item_id, hpx]
  obtain ⟨pn, hpn⟩ : ∃ pn, (s.mem.nodes nd).payload = some pn := by
    rw [hidx] at hnd
    cases h : (s.mem.nodes nd).payload with
    | none => simp [item_id, h] at hnd
    | some pn => exact ⟨pn, rfl⟩
  have hidn : s.mem.user pn = s.mem.user px := by
    rw [hidx] at hnd
    simpa [item_id, hpn] using hnd
  have hpnx : pn ≠ px := by
    intro e; apply hpl; rw [hpn, hpx, e]
  have hne : ∀ c ∈ xs, c ≠ x → ∀ pc, (s.mem.nodes c).payload = some pc →
      s.mem.user pc ≠ s.mem.user pn := by
    intro c hc hcx pc hpc e
    apply hcx
    apply hids c hc x hx
    simp [item_id, hpc, hpx, e, hidn]
  -- the first search
  obtain ⟨s1, heq1, hmem1⟩ := find_loop_spec cmp_node nd xs s _ _ _ fuel hfuel hwf.2
  have hfound : xs.find? (fun c => decide (cmp_node s.mem c nd = 0)) = some x := by
    obtain ⟨ys, zs, hxs, _⟩ := nodup_split_erase xs x hx hwf.1
    refine List.find?_eq_some.2 ⟨?_, ys, zs, hxs, ?_⟩
    · simpa using (cmp_node_eq_zero_iff s.mem x nd px pn hpx hpn).2 hidn.symm
    · intro y hy
      have hyxs : y ∈ xs := by rw [hxs]; exact List.mem_append_left _ hy
      have hyx : y ≠ x := by
        intro e
        have hnd2 := List.nodup_append.1 (hxs ▸ hwf.1)
        exact hnd2.2.2 (e ▸ hy) (List.mem_cons_self x zs)
      obtain ⟨py, hpy⟩ := Option.ne_none_iff_exists'.1 (hitems y hyxs)
      have := hne y hyxs hyx py hpy
      simpa using fun h => this ((cmp_node_eq_zero_iff s.mem y nd py pn hpy hpn).1 h)
  rw [hfound] at heq1
  refine ⟨s1, by simp [llist_find, hcmp, heq1], ?_⟩
  -- the removal
  have hwf1 : WellFormed s1.mem l xs := by rw [hmem1]; exact hwf
  obtain ⟨s2, l2, heq2, hwf2, hmem2, hpay2, hout2, hcmp2, _⟩ :=
    remove_member_full s1 l xs x fuel hwf1 hx hfuel (fun f hf m q hq => (hfree f hf m).1 q hq)
  have huser2 : ∀ y, y ≠ px → s2.mem.user y = s.mem.user y := by
    intro y hy
    rw [hmem2]
    cases hf : l.free_node with
    | none => simp [splice_user, hmem1]
    | some f =>
      simp only
      rw [(hfree f hf _).2 y, splice_user, hmem1]
      rw [splice_payload, hmem1, hpx]
      intro e; exact hy (Option.some.inj e).symm
  have hlen : (xs.erase x).length ≤ fuel := by
    rw [List.length_erase_of_mem hx]; omega
  refine ⟨s2, l2, heq2, ?_, wf_walk_next _ _ _ hwf2 fuel hlen, List.length_erase_of_mem hx⟩
  -- the second search
  obtain ⟨s3, heq3, _⟩ := find_loop_spec cmp_node nd (xs.erase x) s2 _ _ _ fuel hlen hwf2.2
  have hnone : (xs.erase x).find? (fun c => decide (cmp_node s2.mem c nd = 0)) = none := by
    rw [List.find?_eq_none]
    intro c hc
    obtain ⟨hcx, hcxs⟩ := (List.Nodup.mem_erase_iff hwf.1).1 hc
    obtain ⟨pc, hpc⟩ := Option.ne_none_iff_exists'.1 (hitems c hcxs)
    have hndx' : nd ≠ x := fun e => hndx (e ▸ hx)
    have hpc2 : (s2.mem.nodes c).payload = some pc := by
      rw [hpay2 c hcx, hmem1]; exact hpc
    have hpn2 : (s2.mem.nodes nd).payload = some pn := by
      rw [hpay2 nd hndx', hmem1]; exact hpn
    have hpcx : pc ≠ px := by
      intro e
      apply hcx
      apply hids c hcxs x hx
      simp [item_id, hpc, hpx, e]
    have := hne c hcxs hcx pc hpc
    simp only [decide_eq_true_eq]
    intro h
    apply this
    have h' := (cmp_node_eq_zero_iff s2.mem c nd pc pn hpc2 hpn2).1 h
    rwa [huser2 pc hpcx, huser2 pn hpnx] at h'
  rw [hnone] at heq3
  exact ⟨s3, by simp [llist_find, hcmp2, hcmp, heq3]⟩

/-- Witness for C15: `N = 10`, ids `1` to `10`, the needle (node `11`) has id `5`: the fifth
inserted node is found, and after its removal the search fails and nine nodes are left. -/
theorem find_remove_find_witness :
    WellFormed example_ten.1.mem example_ten_list [1, 2, 3, 4, 5, 6, 7, 8, 9, 10] ∧
    item_id example_ten.1.mem 11 = some 5 ∧ item_id example_ten.1.mem 5 = some 5 ∧
    ∃ s1, llist_find 10 example_ten.1 (some example_ten_list) (some 11) = some (s1, some 5) ∧
      ∃ s2 l2, llist_remove 10 s1 (some example_ten_list) (some 5) = some (s2, some l2) ∧
        (∃ s3, llist_find 10 s2 (some l2) (some 11) = some (s3, none)) ∧
        walk_next s2.mem 10 l2.head = some [1, 2, 3, 4, 6, 7, 8, 9, 10] ∧
        [1, 2, 3, 4, 6, 7, 8, 9, 10].length = 9 := by
  have h1 : WellFormed example_ten.1.mem example_ten_list [1, 2, 3, 4, 5, 6, 7, 8, 9, 10] := by
    decide
  have h := find_remove_find example_ten.1 example_ten_list [1, 2, 3, 4, 5, 6, 7, 8, 9, 10]
    5 11 10 h1 rfl (by decide) (by decide) (by decide) (by decide) (by decide) (by decide)
    (by
      intro f hf m
      have hfe : f = example_free_node := (Option.some.inj hf).symm
      subst hfe
      refine ⟨fun q hq => ?_, fun y _ => rfl⟩
      simp [example_free_node, hq])
    (by decide)
  exact ⟨h1, by decide, by decide, h⟩

/-! ## Duplication -/

/-- Appending at the tail writes to the linked node and to the old tail only. -/
theorem add_tail_nodes_frame (s s1 : State) (l : llist) (w : Option Ptr) (n a : Ptr)
    (hadd : llist_add_added s l n = (s1, some a)) (q : Ptr) (hqa : q ≠ a)
    (hqt : l.tail ≠ some q) :
    (llist_add s (some l) llist_position.tail w (some n)).1.mem.nodes q = s1.mem.nodes q := by
  cases ht : l.tail with
  | none => simp [llist_add, hadd, ht, set_previous, set_next, hqa]
  | some t =>
    have hqt' : q ≠ t := by intro e; apply hqt; rw [ht, e]
    simp [llist_add, hadd, ht, set_previous, set_next, hqa, hqt']

/-- Appending at the tail leaves every payload pointer as it is. -/
theorem add_tail_payload (s s1 : State) (l : llist) (w : Option Ptr) (n a : Ptr)
    (hadd : llist_add_added s l n = (s1, some a)) (q : Ptr) :
    ((llist_add s (some l) llist_position.tail w (some n)).1.mem.nodes q).payload =
      (s1.mem.nodes q).payload := by
  cases ht : l.tail <;> simp [llist_add, hadd, ht]

/-- Appending at the tail leaves the caller-owned storage as it is. -/
theorem add_tail_user (s s1 : State) (l : llist) (w : Option Ptr) (n a : Ptr)
    (hadd : llist_add_added s l n = (s1, some a)) :
    (llist_add s (some l) llist_position.tail w (some n)).1.mem.user = s1.mem.user := by
  cases ht : l.tail <;> simp [llist_add, hadd, ht]

/-- The function `llist_add` leaves the four hook bindings as they are. -/
theorem llist_add_hooks (s : State) (l l' : llist) (position : llist_position)
    (w node : Option Ptr) (s' : State)
    (h : llist_add s (some l) position w node = (s', some l')) :
    l'.new_node = l.new_node ∧ l'.dup_node = l.dup_node ∧ l'.free_node = l.free_node ∧
      l'.cmp_node = l.cmp_node := by
  cases node with
  | none =>
    simp [llist_add] at h
    rw [← h.2]; simp
  | some n =>
    simp only [llist_add] at h
    cases ha : llist_add_added s l n with
    | mk s1 r =>
      rw [ha] at h
      cases r with
      | none =>
        simp at h
        rw [← h.2]; simp
      | some a =>
        have h2 := Option.some.inj (Prod.mk.inj h).2
        rw [← h2]
        cases position <;> simp <;> (repeat' split) <;> simp

/-- Monotonicity of a pairwise relation, with the members at hand. -/
theorem forall2_imp_mem {R S : Ptr → Ptr → Prop} (ys xs : List Ptr)
    (h : List.Forall₂ R ys xs) (himp : ∀ y ∈ ys, ∀ x ∈ xs, R y x → S y x) :
    List.Forall₂ S ys xs := by
  induction h with
  | nil => exact List.Forall₂.nil
  | cons hr _ ih =>
    refine List.Forall₂.cons (himp _ (List.mem_cons_self _ _) _ (List.mem_cons_self _ _) hr) ?_
    exact ih (fun y hy x hx => himp y (List.mem_cons_of_mem _ hy) x (List.mem_cons_of_mem _ hx))

/-- The tail of a well-formed list is one of its nodes. -/
theorem wf_tail_mem (m : Mem) (l : llist) (xs : List Ptr) (hwf : WellFormed m l xs)
    (t : Ptr) (ht : l.tail = some t) : t ∈ xs := by
  by_cases hx : xs = []
  · have := (wf_tail_none_iff m l xs hwf).2 hx
    rw [this] at ht; cases ht
  · obtain ⟨t', ht', hm⟩ := seg_last_mem _ _ _ _ _ _ hwf.2 hx
    rw [ht'] at ht
    exact Option.some.inj ht ▸ hm

/-- One iteration of the loop of `llist_dup` with a duplicate hook under contract: the hook
runs on the source node, `llist_add` runs it again on the result and appends that second
duplicate; the loop state is kept. -/
theorem dup_step (lo : Nat) (brk : (Ptr → Int) → Nat) (c : Mem → Ptr → Ptr → Int)
    (f : Mem → Ptr → Option Ptr × Mem) (B0 : Nat) (m0 : Mem) (l : llist)
    (hdup : l.dup_node = some f) (hf : DupContract lo brk c f) (hloc : CmpLocal c)
    (htr : CmpTrans c) (s : State) (nl : llist) (ys done : List Ptr) (x : Ptr)
    (zs : List Ptr) (p : Option Ptr)
    (hinv : DupInv lo brk c f B0 m0 s.mem nl ys done (x :: zs) p) :
    ∃ s3 nl3 e,
      (∀ fuel, llist_dup_loop l (fuel + 1) s (some nl) p =
        llist_dup_loop l fuel s3 (some nl3) (s3.mem.nodes x).next) ∧
      DupInv lo brk c f B0 m0 s3.mem nl3 (ys ++ [e]) (done ++ [x]) zs (s3.mem.nodes x).next ∧
      nl3.new_node = nl.new_node ∧ nl3.dup_node = nl.dup_node ∧
      nl3.free_node = nl.free_node ∧ nl3.cmp_node = nl.cmp_node := by
  obtain ⟨prev, last, hp, _, hseg⟩ := hinv.src
  subst hp
  obtain ⟨d, q1, hd1, hp1, hbd, hdb, hbq1, hq1b, hfn1, hfu1, hc1⟩ := hf s.mem x
  generalize hm1 : (f s.mem x).2 = m1 at hd1 hp1 hdb hq1b hfn1 hfu1 hc1
  obtain ⟨e, q2, hd2, hp2, hbe, heb, hbq2, hq2b, hfn2, hfu2, hc2⟩ := hf m1 d
  generalize hm2 : (f m1 d).2 = m2 at hd2 hp2 heb hq2b hfn2 hfu2 hc2
  have hB := hinv.brk_le
  have hlo := hinv.lo_le
  have hadd : llist_add_added { mem := m1, trace := s.trace ++ [Event.dup_node x] } nl d =
      ({ mem := m2, trace := s.trace ++ [Event.dup_node x] ++ [Event.dup_node d] }, some e) := by
    simp [llist_add_added, hinv.hook, hd2, hm2]
  -- the nodes below the break of `s` are untouched by both hook calls
  have hold : ∀ q, q < brk s.mem.user → m2.nodes q = s.mem.nodes q := by
    intro q hq
    rw [hfn2 q (by omega), hfn1 q hq]
  have holdu : ∀ y, lo ≤ y → y < brk s.mem.user → m2.user y = s.mem.user y := by
    intro y hy1 hy2
    rw [hfu2 y hy1 (by omega), hfu1 y hy1 hy2]
  have hwf2 : WellFormed m2 nl ys := by
    refine ⟨hinv.wf.1, seg_congr _ _ _ _ _ _ _ ?_ hinv.wf.2⟩
    intro y hy
    rw [hold y (hinv.fresh y hy).2]
    exact ⟨rfl, rfl⟩
  have hey : e ∉ ys := by
    intro h
    have := (hinv.fresh e h).2
    omega
  obtain ⟨s3, nl3, heq, hwf3, _⟩ :=
    add_tail_linked { mem := m1, trace := s.trace ++ [Event.dup_node x] }
      { mem := m2, trace := s.trace ++ [Event.dup_node x] ++ [Event.dup_node d] }
      nl ys none d e hadd hwf2 hey
  have hs3 : (llist_add { mem := m1, trace := s.trace ++ [Event.dup_node x] } (some nl)
      llist_position.tail none (some d)).1 = s3 := congrArg Prod.fst heq
  have hn3 : ∀ q : Nat, q < brk s.mem.user → (∀ y ∈ ys, y ≠ q) →
      s3.mem.nodes q = s.mem.nodes q := by
    intro q hq hqy
    have hqe : q ≠ e := by intro h; subst h; omega
    rw [← hs3, add_tail_nodes_frame _ _ nl none d e hadd q hqe, hold q hq]
    intro ht
    exact hqy q (wf_tail_mem _ _ _ hinv.wf q ht) rfl
  have hpay3 : ∀ q, (s3.mem.nodes q).payload = (m2.nodes q).payload := by
    intro q
    rw [← hs3]
    exact add_tail_payload _ _ nl none d e hadd q
  have hu3 : s3.mem.user = m2.user := by
    rw [← hs3]
    exact add_tail_user _ _ nl none d e hadd
  have hsrc : ∀ z : Nat, z < B0 → s3.mem.nodes z = s.mem.nodes z := by
    intro z hz
    refine hn3 z (by omega) ?_
    intro y hy h
    have := (hinv.fresh y hy).1
    subst h
    omega
  obtain ⟨hk1, hk2, hk3, hk4⟩ := llist_add_hooks _ nl nl3 _ _ _ _ heq
  have hxB : B0 > x := hinv.src_old x (by simp)
  -- the payloads of the old nodes and what they point to
  have hpayold : ∀ z : Nat, z < brk s.mem.user →
      (s3.mem.nodes z).payload = (s.mem.nodes z).payload := by
    intro z hz
    rw [hpay3, hold z hz]
  have huold : ∀ y : Nat, lo ≤ y → y < brk s.mem.user → s3.mem.user y = s.mem.user y := by
    intro y hy1 hy2
    rw [hu3, holdu y hy1 hy2]
  have hsrcitem : ∀ z ∈ done ++ x :: zs, ∀ q : Nat, (s.mem.nodes z).payload = some q →
      lo ≤ q ∧ q < B0 := by
    intro z hz q hq
    rw [hinv.frame_nodes z (hinv.src_old z hz)] at hq
    exact hinv.src_items z hz q hq
  refine ⟨s3, nl3, e, ?_, ?_, hk1, hk2, hk3, hk4⟩
  · intro fuel
    simp only [llist_dup_loop, hdup, hd1, hm1, heq]
  · refine
      { hook := by rw [hk2]; exact hinv.hook
        src := ⟨some x, last, ?_⟩
        src_old := by intro z hz; exact hinv.src_old z (by simpa using hz)
        src_items := by intro z hz; exact hinv.src_items z (by simpa using hz)
        lo_le := hlo
        brk_le := by rw [hu3]; omega
        wf := hwf3
        fresh := ?_
        items := ?_
        rel := ?_
        frame_nodes := by
          intro z hz
          rw [hsrc z hz, hinv.frame_nodes z hz]
        frame_user := by
          intro y hy1 hy2
          rw [huold y hy1 (by omega), hinv.frame_user y hy1 hy2] }
    · rw [hsrc x hxB]
      refine seg_congr _ _ _ _ _ _ _ ?_ hseg
      intro z hz
      have hzB : B0 > z := hinv.src_old z (by simp [hz])
      rw [hsrc z hzB]
      exact ⟨rfl, rfl⟩
    · intro y hy
      rw [hu3]
      rcases List.mem_append.1 hy with h | h
      · have := hinv.fresh y h
        exact ⟨this.1, by omega⟩
      · rw [List.mem_singleton] at h
        subst h
        exact ⟨by omega, by omega⟩
    · intro y hy
      rw [hu3]
      rcases List.mem_append.1 hy with h | h
      · obtain ⟨q, h1, h2, h3⟩ := hinv.items y h
        refine ⟨q, ?_, h2, by omega⟩
        rw [hpayold y (hinv.fresh y h).2]
        exact h1
      · rw [List.mem_singleton] at h
        subst h
        exact ⟨q2, by rw [hpay3]; exact hp2, by omega, by omega⟩
    · refine List.rel_append ?_ ?_
      · refine forall2_imp_mem ys done hinv.rel ?_
        intro y hy z hz hr
        obtain ⟨qy, hy1, hy2, hy3⟩ := hinv.items y hy
        have hzB : B0 > z := hinv.src_old z (by simp [hz])
        rw [hloc s.mem s3.mem y z (hpayold y (hinv.fresh y hy).2) (hpayold z (by omega))
          (by
            intro q hq
            rw [hy1] at hq
            have := Option.some.inj hq
            subst this
            exact huold _ (by omega) hy3)
          (by
            intro q hq
            have := hsrcitem z (by simp [hz]) q hq
            exact huold _ this.1 (by omega))]
        exact hr
      · refine List.Forall₂.cons ?_ List.Forall₂.nil
        -- in `m1` the first duplicate compares equal to the source node
        -- in `m2` that still holds, and the second duplicate compares equal to the first
        have hdx2 : c m2 d x = 0 := by
          rw [hloc m1 m2 d x (by rw [hfn2 d hdb]) (by rw [hfn2 x (by omega)])
            (by
              intro q hq
              rw [hp1] at hq
              have := Option.some.inj hq
              subst this
              exact hfu2 _ (by omega) hq1b)
            (by
              intro q hq
              rw [hfn1 x (by omega)] at hq
              have := hsrcitem x (by simp) q hq
              exact hfu2 _ this.1 (by omega))]
          exact hc1
        have hd2pay : (m2.nodes d).payload ≠ none := by
          rw [hfn2 d hdb, hp1]; simp
        have hex2 : c m2 e x = 0 := htr m2 e d x hd2pay hc2 hdx2
        rw [hloc m2 s3.mem e x (hpay3 e) (hpay3 x) (by intro q _; rw [hu3])
          (by intro q _; rw [hu3])]
        exact hex2

/-- The loop of `llist_dup` with a duplicate hook under contract, on fuel for one walk of the
source list: it returns, and the loop state holds with every source node walked over. -/
theorem dup_loop_spec (lo : Nat) (brk : (Ptr → Int) → Nat) (c : Mem → Ptr → Ptr → Int)
    (f : Mem → Ptr → Option Ptr × Mem) (B0 : Nat) (m0 : Mem) (l : llist)
    (hdup : l.dup_node = some f) (hf : DupContract lo brk c f) (hloc : CmpLocal c)
    (htr : CmpTrans c) (zs : List Ptr) :
    ∀ (s : State) (nl : llist) (ys done : List Ptr) (p : Option Ptr) (fuel : Nat),
      zs.length ≤ fuel → DupInv lo brk c f B0 m0 s.mem nl ys done zs p →
      ∃ s' nl' ys', llist_dup_loop l fuel s (some nl) p = some (s', some nl') ∧
        DupInv lo brk c f B0 m0 s'.mem nl' ys' (done ++ zs) [] none ∧
        nl'.new_node = nl.new_node ∧ nl'.dup_node = nl.dup_node ∧
        nl'.free_node = nl.free_node ∧ nl'.cmp_node = nl.cmp_node := by
  induction zs with
  | nil =>
    intro s nl ys done p fuel _ hinv
    obtain ⟨prev, last, hp, _⟩ := hinv.src
    subst hp
    refine ⟨s, nl, ys, by cases fuel <;> rfl, ?_, rfl, rfl, rfl, rfl⟩
    rw [List.append_nil]
    exact hinv
  | cons x zs ih =>
    intro s nl ys done p fuel hfuel hinv
    cases fuel with
    | zero => simp at hfuel
    | succ k =>
      have hk : zs.length ≤ k := by simpa using hfuel
      obtain ⟨s3, nl3, e, hstep, hinv3, h1, h2, h3, h4⟩ :=
        dup_step lo brk c f B0 m0 l hdup hf hloc htr s nl ys done x zs p hinv
      obtain ⟨s', nl', ys', heq, hinv', g1, g2, g3, g4⟩ :=
        ih s3 nl3 (ys ++ [e]) (done ++ [x]) _ k hk hinv3
      refine ⟨s', nl', ys', by rw [hstep k, heq], ?_, by rw [g1, h1], by rw [g2, h2],
        by rw [g3, h3], by rw [g4, h4]⟩
      have : done ++ x :: zs = (done ++ [x]) ++ zs := by simp
      rw [this]
      exact hinv'

/-- The function `llist_dup` on a well-formed list whose nodes, and the items they carry, lie
in the heap, with a duplicate hook under contract: the call returns a new handle with the
hook bindings of the source, and the loop state holds with every source node walked over. -/
theorem dup_spec (lo : Nat) (brk : (Ptr → Int) → Nat) (c : Mem → Ptr → Ptr → Int)
    (f : Mem → Ptr → Option Ptr × Mem) (s : State) (l : llist) (xs : List Ptr) (fuel : Nat)
    (hwf : WellFormed s.mem l xs) (hdup : l.dup_node = some f) (hf : DupContract lo brk c f)
    (hloc : CmpLocal c) (htr : CmpTrans c) (hlo : lo ≤ brk s.mem.user)
    (hheap : ∀ x ∈ xs, brk s.mem.user > x ∧
      ∀ q : Nat, (s.mem.nodes x).payload = some q → lo ≤ q ∧ q < brk s.mem.user)
    (hfuel : xs.length ≤ fuel) :
    ∃ s' l2 ys, llist_dup true fuel s (some l) = some (s', some l2) ∧
      DupInv lo brk c f (brk s.mem.user) s.mem s'.mem l2 ys xs [] none ∧
      l2.new_node = l.new_node ∧ l2.dup_node = l.dup_node ∧
      l2.free_node = l.free_node ∧ l2.cmp_node = l.cmp_node := by
  have hinv : DupInv lo brk c f (brk s.mem.user) s.mem s.mem
      { llist.zero with new_node := l.new_node, dup_node := l.dup_node,
                        free_node := l.free_node, cmp_node := l.cmp_node } [] [] xs l.head :=
    { hook := hdup
      src := ⟨none, l.tail, hwf.2⟩
      src_old := fun x hx => (hheap x (by simpa using hx)).1
      src_items := fun x hx => (hheap x (by simpa using hx)).2
      lo_le := hlo
      brk_le := le_refl _
      wf := ⟨List.nodup_nil, rfl, rfl⟩
      fresh := fun y hy => by cases hy
      items := fun y hy => by cases hy
      rel := List.Forall₂.nil
      frame_nodes := fun _ _ => rfl
      frame_user := fun _ _ _ => rfl }
  obtain ⟨s', nl', ys', heq, hinv', g1, g2, g3, g4⟩ :=
    dup_loop_spec lo brk c f (brk s.mem.user) s.mem l hdup hf hloc htr xs s _ [] [] l.head
      fuel hfuel hinv
  refine ⟨s', nl', ys', ?_, by simpa using hinv', g1, g2, g3, g4⟩
  simp only [llist_dup, llist_new, llist_set_new, llist_set_dup, llist_set_free, llist_set_cmp,
    if_true, Option.map_some']
  exact heq

/-- The compare hook `cmp_node` looks at the payloads only. -/
theorem cmp_node_local : CmpLocal cmp_node := by
  intro m m' a b ha hb hua hub
  simp only [cmp_node, ha, hb]
  cases hpa : (m.nodes a).payload with
  | none => rfl
  | some qa =>
    cases hpb : (m.nodes b).payload with
    | none => rfl
    | some qb => simp only [hua qa hpa, hub qb hpb]

/-- Under `cmp_node`, comparing equal is transitive through a node that carries an item. -/
theorem cmp_node_trans : CmpTrans cmp_node := by
  intro m a b d hb h1 h2
  obtain ⟨qb, hqb⟩ := Option.ne_none_iff_exists'.1 hb
  cases hpa : (m.nodes a).payload with
  | none => simp [cmp_node, hpa]
  | some qa =>
    cases hpd : (m.nodes d).payload with
    | none => simp [cmp_node, hpa, hpd]
    | some qd =>
      have e1 := (cmp_node_eq_zero_iff m a b qa qb hpa hqb).1 h1
      have e2 := (cmp_node_eq_zero_iff m b d qb qd hqb hpd).1 h2
      exact (cmp_node_eq_zero_iff m a d qa qd hpa hpd).2 (e1.trans e2)

/-- The example duplicate hook keeps the contract, with the heap starting at `1`, the break
of `example_brk` and `cmp_node` as compare hook. -/
theorem example_dup_node_contract : DupContract 1 example_brk cmp_node example_dup_node := by
  intro m p
  have hd : example_brk m.user ≠ 0 := by simp [example_brk]
  have hbrk : example_brk (example_dup_node m p).2.user = example_brk m.user + 1 := by
    simp [example_dup_node, example_brk]
    omega
  refine ⟨example_brk m.user, example_brk m.user, rfl, by simp [example_dup_node],
    le_refl _, by rw [hbrk]; omega, le_refl _, by rw [hbrk]; omega, ?_, ?_, ?_⟩
  · intro x hx
    have : x ≠ example_brk m.user := by omega
    simp [example_dup_node, this]
  · intro y hy1 hy2
    have h1 : y ≠ example_brk m.user := by omega
    have h2 : y ≠ 0 := by omega
    simp [example_dup_node, h1, h2]
  · by_cases hp : p = example_brk m.user
    · subst hp
      simp [cmp_node, example_dup_node]
    · cases hq : (m.nodes p).payload with
      | none => simp [cmp_node, example_dup_node, hp, hq]
      | some q0 =>
        by_cases hq0 : q0 = example_brk m.user
        · simp [cmp_node, example_dup_node, hp, hq, hq0]
        · simp [cmp_node, example_dup_node, hp, hq, hq0, hd]

/-- A contract for one compare hook gives the contract for the hook that reports every pair
equal: what is left is that the duplicate hook returns fresh nodes and items. -/
theorem dup_contract_fresh (lo : Nat) (brk : (Ptr → Int) → Nat) (c : Mem → Ptr → Ptr → Int)
    (f : Mem → Ptr → Option Ptr × Mem) (h : DupContract lo brk c f) :
    DupContract lo brk (fun _ _ _ => 0) f := by
  intro m p
  obtain ⟨d, q, h1, h2, h3, h4, h5, h6, h7, h8, _⟩ := h m p
  exact ⟨d, q, h1, h2, h3, h4, h5, h6, h7, h8, rfl⟩

/-- C17: for a well-formed list `L` with node sequence `xs` whose nodes and items lie in the
heap, a duplicate hook `f` bound that keeps `DupContract` (it never fails and returns a
fresh node with a fresh copy of the payload that compares equal to the original) and the
compare hook `c` bound, `c` looking at payloads only and its equality being transitive:
`llist_dup(L)` returns a well-formed list with as many nodes as `L`, whose `i`-th node
compares equal to the `i`-th node of `L` for every `i`, whose nodes and payload pointers all
differ from those of `L`, and which carries the four hook bindings of `L`. -/
theorem llist_dup_deep_copy (lo : Nat) (brk : (Ptr → Int) → Nat) (c : Mem → Ptr → Ptr → Int)
    (f : Mem → Ptr → Option Ptr × Mem) (s : State) (l : llist) (xs : List Ptr) (fuel : Nat)
    (hwf : WellFormed s.mem l xs) (hdup : l.dup_node = some f) (hcmp : l.cmp_node = some c)
    (hf : DupContract lo brk c f) (hloc : CmpLocal c) (htr : CmpTrans c)
    (hlo : lo ≤ brk s.mem.user)
    (hheap : ∀ x ∈ xs, brk s.mem.user > x ∧
      ∀ q : Nat, (s.mem.nodes x).payload = some q → lo ≤ q ∧ q < brk s.mem.user)
    (hfuel : xs.length ≤ fuel) :
    ∃ s' l2 ys, llist_dup true fuel s (some l) = some (s', some l2) ∧
      WellFormed s'.mem l2 ys ∧ ys.length = xs.length ∧
      (∀ i (h1 : i < ys.length) (h2 : i < xs.length),
        c s'.mem (ys.get ⟨i, h1⟩) (xs.get ⟨i, h2⟩) = 0) ∧
      (∀ y ∈ ys, y ∉ xs) ∧
      (∀ y ∈ ys, (s'.mem.nodes y).payload ≠ none ∧
        ∀ x ∈ xs, (s'.mem.nodes y).payload ≠ (s'.mem.nodes x).payload) ∧
      l2.new_node = l.new_node ∧ l2.dup_node = some f ∧ l2.free_node = l.free_node ∧
      l2.cmp_node = some c := by
  obtain ⟨s', l2, ys, heq, hinv, g1, g2, g3, g4⟩ :=
    dup_spec lo brk c f s l xs fuel hwf hdup hf hloc htr hlo hheap hfuel
  refine ⟨s', l2, ys, heq, hinv.wf, hinv.rel.length_eq, fun i h1 h2 => hinv.rel.get h1 h2,
    ?_, ?_, g1, by rw [g2, hdup], g3, by rw [g4, hcmp]⟩
  · intro y hy hyx
    have h1 := (hinv.fresh y hy).1
    have h2 := (hheap y hyx).1
    omega
  · intro y hy
    obtain ⟨q, hq1, hq2, _⟩ := hinv.items y hy
    refine ⟨by rw [hq1]; simp, ?_⟩
    intro x hx e
    have hxB := (hheap x hx).1
    rw [hq1, hinv.frame_nodes x hxB] at e
    have := ((hheap x hx).2 q e.symm).2
    omega

/-- Witness for C17: the list `1, 2` of `example_mem_items` with `example_dup_node` and
`cmp_node` bound. -/
theorem llist_dup_deep_copy_witness :
    WellFormed example_state_items.mem example_list_dup [1, 2] ∧
    DupContract 1 example_brk cmp_node example_dup_node ∧
    CmpLocal cmp_node ∧ CmpTrans cmp_node ∧
    ∃ s' l2 ys, llist_dup true 2 example_state_items (some example_list_dup)
        = some (s', some l2) ∧
      WellFormed s'.mem l2 ys ∧ ys.length = 2 ∧ (∀ y ∈ ys, y ∉ [1, 2]) := by
  have h1 : WellFormed example_state_items.mem example_list_dup [1, 2] := by decide
  obtain ⟨s', l2, ys, heq, hwf, hlen, _, hfresh, _⟩ :=
    llist_dup_deep_copy 1 example_brk cmp_node example_dup_node example_state_items
      example_list_dup [1, 2] 2 h1 rfl rfl example_dup_node_contract cmp_node_local
      cmp_node_trans (by decide)
      (by
        intro x hx
        have hb : example_brk example_state_items.mem.user = 3 := by decide
        rw [hb]
        simp only [List.mem_cons, List.mem_singleton, List.not_mem_nil, or_false] at hx
        rcases hx with rfl | rfl
        · refine ⟨by decide, fun q hq => ?_⟩
          have : q = 1 := (Option.some.inj hq).symm
          omega
        · refine ⟨by decide, fun q hq => ?_⟩
          have : q = 2 := (Option.some.inj hq).symm
          omega)
      (by decide)
  exact ⟨h1, example_dup_node_contract, cmp_node_local, cmp_node_trans, s', l2, ys, heq, hwf,
    hlen, hfresh⟩

/-- C20: for a well-formed list `L` with node sequence `xs` whose nodes and items lie in the
heap and a duplicate hook bound that never fails and returns fresh nodes, `llist_dup(L)`
returns a list `L2` on nodes `ys` and leaves every node of `L` as it is, so that `L`, whose
handle the call does not write to, is still well-formed on `xs`; and `llist_remove(L, x)`
for a member `x` then returns and leaves every node of `L2`, links and payload pointer, as
it is, so that `L2`, whose handle that call does not write to, is still well-formed on
`ys`. A bound free hook is taken to write to no node but the one it is given. -/
theorem llist_dup_remove_frame (lo : Nat) (brk : (Ptr → Int) → Nat)
    (f : Mem → Ptr → Option Ptr × Mem) (s : State) (l : llist) (xs : List Ptr) (x : Ptr)
    (fuel : Nat)
    (hwf : WellFormed s.mem l xs) (hdup : l.dup_node = some f)
    (hf : DupContract lo brk (fun _ _ _ => 0) f) (hlo : lo ≤ brk s.mem.user)
    (hheap : ∀ x ∈ xs, brk s.mem.user > x ∧
      ∀ q : Nat, (s.mem.nodes x).payload = some q → lo ≤ q ∧ q < brk s.mem.user)
    (hx : x ∈ xs)
    (hfree : ∀ g, l.free_node = some g → ∀ m q, q ≠ x → (g m x).nodes q = m.nodes q)
    (hfuel : xs.length ≤ fuel) :
    ∃ s1 l2 ys, llist_dup true fuel s (some l) = some (s1, some l2) ∧
      (∀ z ∈ xs, s1.mem.nodes z = s.mem.nodes z) ∧
      WellFormed s1.mem l xs ∧ WellFormed s1.mem l2 ys ∧
      ∃ s2 l', llist_remove fuel s1 (some l) (some x) = some (s2, some l') ∧
        (∀ y ∈ ys, s2.mem.nodes y = s1.mem.nodes y) ∧
        WellFormed s2.mem l2 ys := by
  obtain ⟨s1, l2, ys, heq, hinv, _⟩ :=
    dup_spec lo brk (fun _ _ _ => 0) f s l xs fuel hwf hdup hf
      (fun _ _ _ _ _ _ _ _ => rfl) (fun _ _ _ _ _ _ _ => rfl) hlo hheap hfuel
  have hsame : ∀ z ∈ xs, s1.mem.nodes z = s.mem.nodes z :=
    fun z hz => hinv.frame_nodes z (hheap z hz).1
  have hwf1 : WellFormed s1.mem l xs := by
    refine ⟨hwf.1, seg_congr _ _ _ _ _ _ _ ?_ hwf.2⟩
    intro z hz
    rw [hsame z hz]
    exact ⟨rfl, rfl⟩
  obtain ⟨s2, l', heq2, _, _, _, hout, _⟩ :=
    remove_member_full s1 l xs x fuel hwf1 hx hfuel hfree
  have hys : ∀ y ∈ ys, y ∉ xs := by
    intro y hy hyx
    have h1 := (hinv.fresh y hy).1
    have h2 := (hheap y hyx).1
    omega
  refine ⟨s1, l2, ys, heq, hsame, hwf1, hinv.wf, s2, l', heq2,
    fun y hy => hout y (hys y hy), ?_⟩
  refine ⟨hinv.wf.1, seg_congr _ _ _ _ _ _ _ ?_ hinv.wf.2⟩
  intro y hy
  rw [hout y (hys y hy)]
  exact ⟨rfl, rfl⟩

/-- Witness for C20: the list `1, 2` of `example_mem_items` with `example_dup_node` and
`example_free_node` bound; node `1` is removed after the duplication. -/
theorem llist_dup_remove_frame_witness :
    WellFormed example_state_items.mem example_list_dup_free [1, 2] ∧
    DupContract 1 example_brk (fun _ _ _ => 0) example_dup_node ∧
    ∃ s1 l2 ys, llist_dup true 2 example_state_items (some example_list_dup_free)
        = some (s1, some l2) ∧
      ∃ s2 l', llist_remove 2 s1 (some example_list_dup_free) (some 1)
          = some (s2, some l') ∧
        WellFormed s2.mem l2 ys := by
  have h1 : WellFormed example_state_items.mem example_list_dup_free [1, 2] := by decide
  have h2 := dup_contract_fresh 1 example_brk cmp_node example_dup_node
    example_dup_node_contract
  obtain ⟨s1, l2, ys, heq, _, _, _, s2, l', heq2, _, hwf2⟩ :=
    llist_dup_remove_frame 1 example_brk example_dup_node example_state_items
      example_list_dup_free [1, 2] 1 2 h1 rfl h2 (by decide)
      (by
        intro x hx
        have hb : example_brk example_state_items.mem.user = 3 := by decide
        rw [hb]
        simp only [List.mem_cons, List.mem_singleton, List.not_mem_nil, or_false] at hx
        rcases hx with rfl | rfl
        · refine ⟨by decide, fun q hq => ?_⟩
          have : q = 1 := (Option.some.inj hq).symm
          omega
        · refine ⟨by decide, fun q hq => ?_⟩
          have : q = 2 := (Option.some.inj hq).symm
          omega)
      (by decide)
      (by
        intro g hg m q hq
        have hge : g = example_free_node := (Option.some.inj hg).symm
        subst hge
        simp [example_free_node, hq])
      (by decide)
  exact ⟨h1, h2, s1, l2, ys, heq, s2, l', heq2, hwf2⟩

/-! ## Position tokens -/

/-- C21: for each of the four position values `p`,
`llist_position_string_to_type(llist_position_type_to_string(p)) == p`, the tokens being
exactly `tail`, `head`, `before`, `after`; and for every text `t` that is none of the four
tokens, absent (`NULL`) and empty text included, `llist_position_string_to_type` returns
`Tail`. -/
theorem position_round_trip (t : Option String)
    (h1 : t ≠ some "tail") (h2 : t ≠ some "head") (h3 : t ≠ some "before")
    (h4 : t ≠ some "after") :
    (∀ p, llist_position_string_to_type (some (llist_position_type_to_string p)) = p) ∧
    llist_position_type_to_string llist_position.tail = "tail" ∧
    llist_position_type_to_string llist_position.head = "head" ∧
    llist_position_type_to_string llist_position.before = "before" ∧
    llist_position_type_to_string llist_position.after = "after" ∧
    llist_position_string_to_type t = llist_position.tail := by
  refine ⟨?_, rfl, rfl, rfl, rfl, ?_⟩
  · intro p
    cases p <;> decide
  · cases t with
    | none => rfl
    | some str =>
      have g1 : str ≠ "tail" := fun e => h1 (by rw [e])
      have g2 : str ≠ "head" := fun e => h2 (by rw [e])
      have g3 : str ≠ "before" := fun e => h3 (by rw [e])
      have g4 : str ≠ "after" := fun e => h4 (by rw [e])
      simp [llist_position_string_to_type, g1, g2, g3, g4]

/-- Witness for C21: the absent text; the empty text and an unknown word go to `Tail` too. -/
theorem position_round_trip_witness :
    llist_position_string_to_type none = llist_position.tail ∧
    llist_position_string_to_type (some "") = llist_position.tail ∧
    llist_position_string_to_type (some "middle") = llist_position.tail ∧
    llist_position_string_to_type (some "before") = llist_position.before :=
  ⟨(position_round_trip none (by decide) (by decide) (by decide) (by decide)).2.2.2.2.2,
    (position_round_trip (some "") (by decide) (by decide) (by decide) (by decide)).2.2.2.2.2,
    (position_round_trip (some "middle") (by decide) (by decide) (by decide)
      (by decide)).2.2.2.2.2,
    (position_round_trip none (by decide) (by decide) (by decide) (by decide)).1
      llist_position.before⟩

/-! ## Preservation of well-formedness -/

/-- The walk reports the nodes of a well-formed list. -/
theorem nodes_of_wf (m : Mem) (l : llist) (xs : List Ptr) (fuel : Nat)
    (hwf : WellFormed m l xs) (hfuel : xs.length ≤ fuel) : nodes_of fuel m l = xs := by
  simp [nodes_of, wf_walk_next m l xs hwf fuel hfuel]

/-- Well-formedness only depends on the nodes of the list. -/
theorem wf_congr (m m' : Mem) (l : llist) (xs : List Ptr) (hwf : WellFormed m l xs)
    (h : ∀ x ∈ xs, m'.nodes x = m.nodes x) : WellFormed m' l xs := by
  refine ⟨hwf.1, seg_congr _ _ _ _ _ _ _ ?_ hwf.2⟩
  intro x hx
  rw [h x hx]
  exact ⟨rfl, rfl⟩

/-- Inserting after the current tail (on the empty list: after no reference), stated for the
node `a` that is linked: the list stays well-formed, with `a` as its last node. -/
theorem add_after_tail_linked (s s1 : State) (l : llist) (xs : List Ptr) (w : Option Ptr)
    (n a : Ptr)
    (hadd : llist_add_added s l n = (s1, some a)) (hwf : WellFormed s1.mem l xs)
    (ha : a ∉ xs) (hr : llist_add_where w l.current l.tail = l.tail) :
    ∃ s' l', llist_add s (some l) llist_position.after w (some n) = (s', some l') ∧
      WellFormed s'.mem l' (xs ++ [a]) := by
  rcases List.eq_nil_or_concat xs with rfl | ⟨ys, t, rfl⟩
  · obtain ⟨hh, ht⟩ := hwf.2
    rw [ht] at hr
    refine ⟨_, _, by simp [llist_add, hadd, hr, hh, ht]; exact ⟨rfl, rfl⟩, ?_⟩
    simp [WellFormed, Seg]
  · rw [List.concat_eq_append] at hwf ha ⊢
    obtain ⟨hnd, hseg⟩ := hwf
    obtain ⟨mid, h1, hprev, hnext, hl⟩ := (seg_snoc _ _ _ _ _ _ _).1 hseg
    have hr' : llist_add_where w l.current l.tail = some t := by rw [hr, hl]
    have hat : a ≠ t := by intro h; apply ha; simp [h]
    have hays : a ∉ ys := by intro h; apply ha; simp [h]
    have htys : t ∉ ys := fun h =>
      (List.nodup_append.1 hnd).2.2 h (List.mem_singleton_self t)
    have hhead : l.head ≠ none := by
      intro h
      have := (wf_head_none_iff s1.mem l (ys ++ [t]) ⟨hnd, hseg⟩).1 h
      simp at this
    obtain ⟨s', l', heq, g1, g2, g3, g4, g5, g6, g7, _⟩ :=
      add_after_linked s s1 l w n a t hadd hr' hat hhead (by rw [hl]; simp)
    refine ⟨s', l', heq, ?_, ?_⟩
    · have : ys ++ [t] ++ [a] = (ys ++ [t]) ++ [a] := rfl
      exact List.nodup_append.2 ⟨hnd, List.nodup_singleton a, by
        intro x hx hx2
        rw [List.mem_singleton] at hx2
        subst hx2
        exact ha hx⟩
    · rw [g6, g7, if_pos hl]
      have e1 : ys ++ [t] ++ [a] = ys ++ [t, a] := by simp
      rw [e1]
      refine (seg_append _ ys [t, a] _ _ _ _).2 ⟨mid, some t, ?_, ?_⟩
      · refine seg_congr s1.mem _ ys _ _ _ _ ?_ h1
        intro x hx
        have hxa : x ≠ a := fun e => hays (e ▸ hx)
        have hxt : x ≠ t := fun e => htys (e ▸ hx)
        exact ⟨g4 x hxa, g5 x hxa hxt⟩
      · refine ⟨rfl, ?_, g1, g2, ?_, rfl⟩
        · rw [g4 t (fun e => hat e.symm)]; exact hprev
        · rw [g3]; exact hnext

/-- One permitted call on a well-formed list returns and leaves a well-formed list, with at
most one node more. -/
theorem call_keeps_well_formed (fuel : Nat) (s : State) (l : llist) (xs : List Ptr) (c : Call)
    (hwf : WellFormed s.mem l xs) (hfuel : xs.length ≤ fuel) (hok : CallOk s l xs c) :
    ∃ s' l' xs', run_call fuel c (s, some l) = some (s', some l') ∧
      WellFormed s'.mem l' xs' ∧ xs'.length ≤ xs.length + 1 := by
  cases c with
  | add position w node =>
    cases node with
    | none => exact absurd hok (by simp [CallOk])
    | some n =>
      cases position with
      | tail =>
        obtain ⟨s1, a, hadd, hframe, ha, _⟩ := hok
        obtain ⟨s', l', heq, hwf', _⟩ :=
          add_tail_linked s s1 l xs w n a hadd (wf_congr _ _ _ _ hwf hframe) ha
        exact ⟨s', l', _, by simp [run_call, heq], hwf', by simp⟩
      | head =>
        obtain ⟨s1, a, hadd, hframe, ha, _⟩ := hok
        obtain ⟨s', l', heq, hwf', _⟩ :=
          add_head_linked s s1 l xs w n a hadd (wf_congr _ _ _ _ hwf hframe) ha
        exact ⟨s', l', _, by simp [run_call, heq], hwf', by simp⟩
      | before =>
        obtain ⟨s1, a, hadd, hframe, ha, r, hr, hres⟩ := hok
        obtain ⟨ys, zs, rfl⟩ := List.mem_iff_append.1 hr
        obtain ⟨s', l', heq, hwf', _⟩ :=
          add_before_linked s s1 l ys zs w n a r hadd (wf_congr _ _ _ _ hwf hframe) ha hres
        exact ⟨s', l', _, by simp [run_call, heq], hwf', by simp; omega⟩
      | after =>
        obtain ⟨s1, a, hadd, hframe, ha, hres⟩ := hok
        obtain ⟨s', l', heq, hwf'⟩ :=
          add_after_tail_linked s s1 l xs w n a hadd (wf_congr _ _ _ _ hwf hframe) ha hres
        exact ⟨s', l', _, by simp [run_call, heq], hwf', by simp⟩
  | remove node =>
    cases node with
    | none => exact absurd hok (by simp [CallOk])
    | some x =>
      obtain ⟨hx, hfree⟩ := hok
      obtain ⟨s', l', heq, hwf', _⟩ := remove_member_full s l xs x fuel hwf hx hfuel hfree
      exact ⟨s', l', _, by simp [run_call, heq], hwf', by
        rw [List.length_erase_of_mem hx]; omega⟩
  | head => exact absurd hok (by simp [CallOk])
  | tail => exact absurd hok (by simp [CallOk])
  | current => exact absurd hok (by simp [CallOk])
  | previous => exact absurd hok (by simp [CallOk])
  | next => exact absurd hok (by simp [CallOk])

/-- A run of permitted calls on a well-formed list returns and leaves a well-formed list. -/
theorem permitted_run (fuel : Nat) (cs : List Call) :
    ∀ (s : State) (l : llist) (xs : List Ptr), WellFormed s.mem l xs →
      xs.length + cs.length ≤ fuel → Permitted fuel cs s l →
      ∃ s' l' xs', run_calls fuel cs (s, some l) = some (s', some l') ∧
        WellFormed s'.mem l' xs' ∧ xs'.length ≤ xs.length + cs.length := by
  induction cs with
  | nil =>
    intro s l xs hwf _ _
    exact ⟨s, l, xs, rfl, hwf, by simp⟩
  | cons c cs ih =>
    intro s l xs hwf hfuel hperm
    obtain ⟨hok, hrest⟩ := hperm
    have hlen : xs.length ≤ fuel := by simp at hfuel; omega
    rw [nodes_of_wf s.mem l xs fuel hwf hlen] at hok
    obtain ⟨s1, l1, xs1, heq, hwf1, hlen1⟩ := call_keeps_well_formed fuel s l xs c hwf hlen hok
    rw [heq] at hrest
    obtain ⟨s', l', xs', heq', hwf', hlen'⟩ :=
      ih s1 l1 xs1 hwf1 (by simp at hfuel; omega) hrest
    exact ⟨s', l', xs', by simp [run_calls, heq, heq'], hwf', by simp; omega⟩

/-- C22: take a well-formed list (in particular an empty one) and any sequence of calls, each
of them an `llist_add` at `Head`, at `Tail`, at `Before` with a member as resolved reference
or at `After` with the current tail as resolved reference, of a node that is not in the list,
or an `llist_remove` of a member node (`Permitted`). Every call returns, and the list that
results is well-formed: the forward chain from `head` runs through pairwise different nodes
and ends in `NULL` at `tail`, `head->previous` is `NULL`, every back link mirrors the forward
link, so that the walk from `tail` via `previous` visits the same nodes in reverse, and
`head` is `NULL` exactly when `tail` is. -/
theorem permitted_calls_keep_well_formed (fuel : Nat) (cs : List Call) (s : State) (l : llist)
    (xs : List Ptr) (hwf : WellFormed s.mem l xs) (hfuel : xs.length + cs.length ≤ fuel)
    (hperm : Permitted fuel cs s l) :
    ∃ s' l' xs', run_calls fuel cs (s, some l) = some (s', some l') ∧
      WellFormed s'.mem l' xs' ∧
      walk_next s'.mem fuel l'.head = some xs' ∧
      walk_previous s'.mem fuel l'.tail = some xs'.reverse ∧
      (l'.head = none ↔ l'.tail = none) := by
  obtain ⟨s', l', xs', heq, hwf', hlen⟩ := permitted_run fuel cs s l xs hwf hfuel hperm
  have hf : xs'.length ≤ fuel := by omega
  refine ⟨s', l', xs', heq, hwf', wf_walk_next _ _ _ hwf' fuel hf,
    wf_walk_previous _ _ _ hwf' fuel hf, ?_⟩
  rw [wf_head_none_iff _ _ _ hwf', wf_tail_none_iff _ _ _ hwf']

/-- Witness for C22: the five calls of `example_calls` on the empty list are permitted and
leave the well-formed list `3, 1, 4`. -/
theorem permitted_calls_keep_well_formed_witness :
    WellFormed State.init.mem llist.zero [] ∧
    Permitted 10 example_calls State.init llist.zero ∧
    ∃ s' l' xs', run_calls 10 example_calls (State.init, some llist.zero)
        = some (s', some l') ∧
      WellFormed s'.mem l' xs' ∧ walk_next s'.mem 10 l'.head = some xs' ∧
      forward_walk 10 (run_calls 10 example_calls (State.init, some llist.zero))
        = some [3, 1, 4] := by
  have h1 : WellFormed State.init.mem llist.zero [] := by decide
  have h2 : Permitted 10 example_calls State.init llist.zero :=
    ⟨⟨_, 1, rfl, fun _ _ => rfl, by decide, trivial⟩,
      ⟨_, 2, rfl, fun _ _ => rfl, by decide, trivial⟩,
      ⟨_, 3, rfl, fun _ _ => rfl, by decide, 1, by decide, by decide⟩,
      ⟨_, 4, rfl, fun _ _ => rfl, by decide, by decide⟩,
      ⟨by decide, fun f hf => by cases hf⟩,
      trivial⟩
  obtain ⟨s', l', xs', heq, hwf, hwalk, _⟩ :=
    permitted_calls_keep_well_formed 10 example_calls State.init llist.zero [] h1
      (by decide) h2
  exact ⟨h1, h2, s', l', xs', heq, hwf, hwalk, by decide⟩

end LList
